import Mathlib

/-!
# Verification of the judge-response extraction and budgeting pipeline

Shallow embedding of the core logic of `scripts/braintrust_analyze.py`:

* the dynamic per-field character-budget computation inside
  `learn_from_session` (constants `TOTAL_CHARS`, `RESERVE_CHARS`,
  `MIN_PER_FIELD`, `MAX_PER_FIELD`, the `estimated_fields` estimate and the
  clamped floor division), together with the `clean` truncation helper;
* the JSON-extraction logic of `llm_judge`: markdown code-fence stripping,
  locating the first `{`, the brace-depth scan, `json.loads`-style parsing
  of the extracted slice, and the construction of the judge-result record
  with `verdict` / `gaps` / `summary` / `raw` / `error` fields.

Python semantics notes used throughout: `//` on ints is floor division
(`Int.fdiv`); `str[:n]` is `take n`; `str.strip()` removes leading and
trailing whitespace; `int(x * 1.5)` on a nonnegative int truncates, i.e.
floors, giving `3 * x / 2` in natural division (exact for all realistic
span counts, where the IEEE product is exact).
-/

namespace Braintrust

/-! ## Budget planner (learn_from_session, lines 1143-1155) -/

/-- `TOTAL_CHARS = 800_000` in `learn_from_session`. -/
def TOTAL_CHARS : Int := 800000

/-- `RESERVE_CHARS = 100_000` in `learn_from_session`. -/
def RESERVE_CHARS : Int := 100000

/-- `MIN_PER_FIELD = 1500` in `learn_from_session`. -/
def MIN_PER_FIELD : Int := 1500

/-- `MAX_PER_FIELD = 8000` in `learn_from_session`. -/
def MAX_PER_FIELD : Int := 8000

/-- `AVAILABLE_CHARS = TOTAL_CHARS - RESERVE_CHARS - hierarchical_chars`,
parameterised over the ceiling, the reserve and the hierarchical-context
length so that the planner can be stated for any configuration. -/
def availableChars (total reserve hier : Int) : Int :=
  total - reserve - hier

/-- `estimated_fields = int(span_count * 1.5)`: floor of `1.5 * span_count`. -/
def estimated_fields (span_count : Nat) : Nat :=
  3 * span_count / 2

/-- The planner: `per_field_budget = AVAILABLE_CHARS // max(1, estimated_fields)`
followed by `per_field_budget = max(MIN_PER_FIELD, min(MAX_PER_FIELD,
per_field_budget))`.  Python `//` is floor division, hence `Int.fdiv`. -/
def per_field_budget (total reserve hier : Int) (span_count : Nat)
    (minPF maxPF : Int) : Int :=
  let available := availableChars total reserve hier
  let raw := Int.fdiv available (max 1 (estimated_fields span_count : Int))
  max minPF (min maxPF raw)

/-- The planner exactly as called in `learn_from_session`: the module's
constants, with only the hierarchical-context length and span count varying. -/
def sessionBudget (hierarchical_chars : Nat) (span_count : Nat) : Int :=
  per_field_budget TOTAL_CHARS RESERVE_CHARS (hierarchical_chars : Int)
    span_count MIN_PER_FIELD MAX_PER_FIELD

/-! ## Per-field truncation (`clean`, lines 1157-1164) -/

/-- Python slicing `s[:n]` on code points. -/
def pyTake (s : String) (n : Nat) : String :=
  ⟨s.data.take n⟩

/-- Python string whitespace for `str.strip()` (ASCII subset: space, tab,
newline, carriage return, vertical tab, form feed). -/
def pyWs (c : Char) : Bool :=
  c = ' ' ∨ c = '\t' ∨ c = '\n' ∨ c = '\r' ∨ c = '\x0b' ∨ c = '\x0c'

/-- `str.strip()` on a char list: drop whitespace from both ends. -/
def pyStripL (cs : List Char) : List Char :=
  ((cs.dropWhile pyWs).reverse.dropWhile pyWs).reverse

/-- `str.strip()`. -/
def pyStrip (s : String) : String :=
  ⟨pyStripL s.data⟩

/-- The truncation marker `f"... [truncated {n} chars]"`. -/
def truncMarker (n : Nat) : String :=
  "... [truncated " ++ toString n ++ " chars]"

/-- `clean(text, max_len)` from `learn_from_session`: empty/falsy text gives
`""`; otherwise the text is stripped, passed through when within budget, and
truncated to the first `max_len` characters plus the marker otherwise. -/
def clean (text : String) (max_len : Nat) : String :=
  if text = "" then ""
  else
    let t := pyStrip text
    if t.length > max_len then pyTake t max_len ++ truncMarker (t.length - max_len)
    else t

/-! ## JSON values

`json.loads` produces dicts/lists/strings/numbers/bools/None.  Numbers are
modelled as integers (floating-point literals are outside the embedding);
dicts are association lists in insertion order, built with last-wins
overwrite exactly as a Python dict. -/

inductive JValue where
  | null
  | bool (b : Bool)
  | num (n : Int)
  | str (s : String)
  | arr (elems : List JValue)
  | obj (fields : List (String × JValue))

/-- `dict.get(k)`: association-list lookup (keys are unique by
construction, see `objFromPairs`). -/
def jlookup (kvs : List (String × JValue)) (k : String) : Option JValue :=
  match kvs with
  | [] => none
  | (k0, v) :: rest => if k0 = k then some v else jlookup rest k

/-- `d[k] = v` on a Python dict: replace in place if the key exists
(keeping its insertion position), else append. -/
def insertKV : List (String × JValue) → String → JValue → List (String × JValue)
  | [], k, v => [(k, v)]
  | (k0, v0) :: kvs, k, v =>
      if k0 = k then (k0, v) :: kvs else (k0, v0) :: insertKV kvs k v

/-- Build a dict from parsed key/value pairs in order (later duplicate keys
overwrite earlier ones, as in `json.loads`). -/
def objFromPairs (ps : List (String × JValue)) : List (String × JValue) :=
  ps.foldl (fun acc kv => insertKV acc kv.1 kv.2) []

/-! ## JSON parsing (`json.loads` on the extracted slice) -/

/-- JSON whitespace accepted between tokens (space, tab, newline, return). -/
def jsonWs (c : Char) : Bool :=
  c = ' ' ∨ c = '\t' ∨ c = '\n' ∨ c = '\r'

/-- Skip JSON whitespace. -/
def skipWs : List Char → List Char
  | [] => []
  | c :: cs => if jsonWs c then skipWs cs else c :: cs

/-- Hexadecimal digit value, for `\uXXXX` escapes. -/
def hexVal (c : Char) : Option Nat :=
  if '0' ≤ c ∧ c ≤ '9' then some (c.toNat - 48)
  else if 'a' ≤ c ∧ c ≤ 'f' then some (c.toNat - 87)
  else if 'A' ≤ c ∧ c ≤ 'F' then some (c.toNat - 55)
  else none

/-- One `\uXXXX` escape after the `\u` marker: four hex digits decode to a
code point (Basic Multilingual Plane; surrogate pairs are outside the
embedding). -/
def uStep : List Char → Option (Option Char × List Char)
  | a :: b :: c :: d :: rest3 =>
      match hexVal a, hexVal b, hexVal c, hexVal d with
      | some x, some y, some z, some w =>
          some (some (Char.ofNat (4096 * x + 256 * y + 16 * z + w)), rest3)
      | _, _, _, _ => none
  | _ => none

/-- One escape sequence after the backslash. -/
def escStep : List Char → Option (Option Char × List Char)
  | [] => none
  | e :: rest2 =>
      if e = '"' then some (some '"', rest2)
      else if e = '\\' then some (some '\\', rest2)
      else if e = '/' then some (some '/', rest2)
      else if e = 'b' then some (some '\x08', rest2)
      else if e = 'f' then some (some '\x0c', rest2)
      else if e = 'n' then some (some '\n', rest2)
      else if e = 'r' then some (some '\r', rest2)
      else if e = 't' then some (some '\t', rest2)
      else if e = 'u' then uStep rest2
      else none

/-- One scanning step inside a JSON string: `some (none, rest)` is the
closing quote, `some (some ch, rest)` one decoded character; raw control
characters are rejected as in strict `json.loads`. -/
def strStep : List Char → Option (Option Char × List Char)
  | [] => none
  | c :: rest =>
      if c = '"' then some (none, rest)
      else if c = '\\' then escStep rest
      else if c.toNat < 32 then none
      else some (some c, rest)

/-- Parse a JSON string body after the opening quote, fuel-indexed (each
step consumes at least one character, so input length + 1 always suffices). -/
def parseStringBodyAux : Nat → List Char → Option (List Char × List Char)
  | 0, _ => none
  | n + 1, cs =>
      match strStep cs with
      | some (none, rest) => some ([], rest)
      | some (some ch, rest) =>
          (parseStringBodyAux n rest).map (fun p => (ch :: p.1, p.2))
      | none => none

/-- Parse a JSON string body after the opening quote, returning the decoded
characters and the remainder after the closing quote. -/
def parseStringBody (cs : List Char) : Option (List Char × List Char) :=
  parseStringBodyAux (cs.length + 1) cs

/-- Fold decimal digit characters into a number. -/
def digitsToNat (ds : List Char) : Nat :=
  ds.foldl (fun a c => 10 * a + (c.toNat - 48)) 0

/-- Parse a maximal run of decimal digits (at least one). -/
def parseNat (cs : List Char) : Option (Nat × List Char) :=
  let ds := cs.takeWhile (fun c => c.isDigit)
  if ds.isEmpty then none
  else some (digitsToNat ds, cs.dropWhile (fun c => c.isDigit))

mutual

/-- Fuel-indexed JSON value parser (fuel bounds the recursion depth; the
callers supply input length + 1, which suffices since every recursive call is
preceded by at least one consumed character). -/
def parseValue : Nat → List Char → Option (JValue × List Char)
  | 0, _ => none
  | n + 1, cs =>
    match skipWs cs with
    | 'n' :: 'u' :: 'l' :: 'l' :: rest => some (.null, rest)
    | 't' :: 'r' :: 'u' :: 'e' :: rest => some (.bool true, rest)
    | 'f' :: 'a' :: 'l' :: 's' :: 'e' :: rest => some (.bool false, rest)
    | '"' :: rest =>
        match parseStringBody rest with
        | some (s, rest2) => some (.str ⟨s⟩, rest2)
        | none => none
    | '[' :: rest =>
        match skipWs rest with
        | ']' :: rest2 => some (.arr [], rest2)
        | cs2 =>
            match parseElems n cs2 with
            | some (vs, rest2) => some (.arr vs, rest2)
            | none => none
    | '{' :: rest =>
        match skipWs rest with
        | '}' :: rest2 => some (.obj [], rest2)
        | cs2 =>
            match parseMembers n cs2 with
            | some (ps, rest2) => some (.obj (objFromPairs ps), rest2)
            | none => none
    | '-' :: rest =>
        match parseNat rest with
        | some (m, rest2) => some (.num (-(m : Int)), rest2)
        | none => none
    | cs2 =>
        match parseNat cs2 with
        | some (m, rest2) => some (.num (m : Int), rest2)
        | none => none

/-- Parse the comma-separated elements of a non-empty array up to `]`. -/
def parseElems : Nat → List Char → Option (List JValue × List Char)
  | 0, _ => none
  | n + 1, cs =>
    match parseValue n cs with
    | none => none
    | some (v, rest) =>
      match skipWs rest with
      | ',' :: rest2 =>
          match parseElems n rest2 with
          | some (vs, rest3) => some (v :: vs, rest3)
          | none => none
      | ']' :: rest2 => some ([v], rest2)
      | _ => none

/-- Parse the comma-separated members of a non-empty object up to `}`. -/
def parseMembers : Nat → List Char → Option (List (String × JValue) × List Char)
  | 0, _ => none
  | n + 1, cs =>
    match skipWs cs with
    | '"' :: rest =>
      match parseStringBody rest with
      | none => none
      | some (k, rest2) =>
        match skipWs rest2 with
        | ':' :: rest3 =>
          match parseValue n rest3 with
          | none => none
          | some (v, rest4) =>
            match skipWs rest4 with
            | ',' :: rest5 =>
                match parseMembers n rest5 with
                | some (ps, rest6) => some ((⟨k⟩, v) :: ps, rest6)
                | none => none
            | '}' :: rest5 => some ([(⟨k⟩, v)], rest5)
            | _ => none
        | _ => none
    | _ => none

end

/-- `json.loads` on a character slice: parse one value and require only
whitespace to remain. -/
def jsonParseFull (cs : List Char) : Option JValue :=
  match parseValue (cs.length + 1) cs with
  | some (v, rest) => if skipWs rest = [] then some v else none
  | none => none

/-! ## Canonical serialization (`json.dumps` with default options) -/

/-- Decimal digit to character. -/
def digitChar (d : Nat) : Char :=
  if d = 0 then '0' else if d = 1 then '1' else if d = 2 then '2'
  else if d = 3 then '3' else if d = 4 then '4' else if d = 5 then '5'
  else if d = 6 then '6' else if d = 7 then '7' else if d = 8 then '8'
  else if d = 9 then '9' else '0'

/-- Decimal digits of `m`, least significant first, with explicit fuel
(`m` itself suffices) so that the definition reduces structurally. -/
def natDigitsAux : Nat → Nat → List Char
  | 0, _ => []
  | fuel + 1, m =>
      if m = 0 then [] else digitChar (m % 10) :: natDigitsAux fuel (m / 10)

/-- Decimal representation of a natural number, most significant digit
first. -/
def natDigits (m : Nat) : List Char :=
  if m = 0 then ['0'] else (natDigitsAux m m).reverse

/-- Decimal representation of an integer. -/
def serInt (n : Int) : List Char :=
  if n < 0 then '-' :: natDigits n.natAbs else natDigits n.toNat

/-- Lowercase hexadecimal digit, for `\uXXXX` escapes in `json.dumps`. -/
def hexChar (n : Nat) : Char :=
  if n < 10 then digitChar n else Char.ofNat (87 + n % 16)

/-- `\uXXXX` escape for a code point (BMP only, as in `parseStringBody`). -/
def uEscape (n : Nat) : List Char :=
  ['\\', 'u', hexChar (n / 4096 % 16), hexChar (n / 256 % 16),
    hexChar (n / 16 % 16), hexChar (n % 16)]

/-- `json.dumps` escaping of one character (`ensure_ascii=True`: everything
outside the printable ASCII range `0x20`-`0x7e` is escaped). -/
def serStrChar (c : Char) : List Char :=
  if c = '"' then ['\\', '"']
  else if c = '\\' then ['\\', '\\']
  else if c = '\n' then ['\\', 'n']
  else if c = '\t' then ['\\', 't']
  else if c = '\r' then ['\\', 'r']
  else if c.toNat = 8 then ['\\', 'b']
  else if c.toNat = 12 then ['\\', 'f']
  else if c.toNat < 32 ∨ 126 < c.toNat then uEscape c.toNat
  else [c]

/-- Serialize a string body character by character. -/
def serStrBody : List Char → List Char
  | [] => []
  | c :: cs => serStrChar c ++ serStrBody cs

/-- Serialize a quoted JSON string. -/
def serStr (s : String) : List Char :=
  '"' :: serStrBody s.data ++ ['"']

mutual

/-- `json.dumps` with the default separators `", "` and `": "`. -/
def serV : JValue → List Char
  | .null => "null".data
  | .bool true => "true".data
  | .bool false => "false".data
  | .num n => serInt n
  | .str s => serStr s
  | .arr xs => '[' :: (serElems xs ++ [']'])
  | .obj kvs => '{' :: (serMembers kvs ++ ['}'])

/-- Serialize array elements, separated by `", "`. -/
def serElems : List JValue → List Char
  | [] => []
  | [v] => serV v
  | v :: w :: vs => serV v ++ ',' :: ' ' :: serElems (w :: vs)

/-- Serialize object members, separated by `", "` with `": "` after keys. -/
def serMembers : List (String × JValue) → List Char
  | [] => []
  | [(k, v)] => serStr k ++ ':' :: ' ' :: serV v
  | (k, v) :: kv :: kvs =>
      serStr k ++ ':' :: ' ' :: serV v ++ ',' :: ' ' :: serMembers (kv :: kvs)

end

/-- `json.dumps` as a string-to-string function. -/
def jdump (v : JValue) : String :=
  ⟨serV v⟩

/-! ## Python `repr` of decoded JSON (used in f-string error messages) -/

/-- A single-quote character (written by code point). -/
def sq : Char := Char.ofNat 39

mutual

/-- Python `repr`/f-string rendering of a decoded JSON value (`None`,
`True`, dicts with single-quoted keys, ...).  Strings are rendered without
escaping (only simple values reach the error messages). -/
def pyRepr : JValue → List Char
  | .null => ['N', 'o', 'n', 'e']
  | .bool true => ['T', 'r', 'u', 'e']
  | .bool false => ['F', 'a', 'l', 's', 'e']
  | .num n => serInt n
  | .str s => sq :: s.data ++ [sq]
  | .arr xs => '[' :: (pyReprElems xs ++ [']'])
  | .obj kvs => '{' :: (pyReprMembers kvs ++ ['}'])

/-- `repr` of list elements, separated by `", "`. -/
def pyReprElems : List JValue → List Char
  | [] => []
  | [v] => pyRepr v
  | v :: w :: vs => pyRepr v ++ ',' :: ' ' :: pyReprElems (w :: vs)

/-- `repr` of dict items, separated by `", "` with `": "` after keys. -/
def pyReprMembers : List (String × JValue) → List Char
  | [] => []
  | [(k, v)] => sq :: k.data ++ sq :: ':' :: ' ' :: pyRepr v
  | (k, v) :: kv :: kvs =>
      sq :: k.data ++ sq :: ':' :: ' ' :: pyRepr v ++ ',' :: ' ' :: pyReprMembers (kv :: kvs)

end

/-! ## Code-fence stripping (lines 801-806)

Models `re.search(r&&&(?:json)?\s*([\s\S]*?)&&&, text, re.IGNORECASE)` where
`&&&` stands for the triple-backtick marker: the match starts at the first
triple-backtick that is followed (after an optional case-insensitive `json`
tag and greedy whitespace) by a closing triple-backtick; the lazily-matched
group is everything up to that closing marker. -/

/-- Split at the first triple-backtick: the characters before it and the
characters after it. -/
def splitAtTriple : List Char → Option (List Char × List Char)
  | '`' :: '`' :: '`' :: rest => some ([], rest)
  | c :: rest => (splitAtTriple rest).map (fun p => (c :: p.1, p.2))
  | [] => none

/-- Drop a case-insensitive `json` tag, if present. -/
def dropJsonTag : List Char → List Char
  | a :: b :: c :: d :: rest =>
      if a.toLower = 'j' ∧ b.toLower = 's' ∧ c.toLower = 'o' ∧ d.toLower = 'n'
      then rest else a :: b :: c :: d :: rest
  | cs => cs

/-- The fence search, fuel-indexed for structural recursion (the fuel is the
input length, which decreases by exactly one at every step): at each
triple-backtick, a match is attempted — optional case-insensitive `json` tag,
greedy Python `\s*` whitespace (same set as `str.strip()`), then a lazily
matched group ending at the next triple-backtick; on failure the search
resumes one character further, as `re.search` does. -/
def fenceInnerAux : Nat → List Char → Option (List Char)
  | 0, _ => none
  | _, [] => none
  | n + 1, '`' :: '`' :: '`' :: rest =>
      match splitAtTriple ((dropJsonTag rest).dropWhile pyWs) with
      | some (inner, _) => some inner
      | none => fenceInnerAux n ('`' :: '`' :: rest)
  | n + 1, _ :: rest => fenceInnerAux n rest

/-- The inner text of the first fenced code block, when one exists. -/
def fenceInner (cs : List Char) : Option (List Char) :=
  fenceInnerAux cs.length cs

/-- Fence stripping as performed on `response_text`: replace the text by the
first fenced region's inner text, stripped, when a fenced block exists. -/
def stripFence (s : String) : String :=
  match fenceInner s.data with
  | some inner => ⟨pyStripL inner⟩
  | none => s

/-! ## Brace scan and decode pipeline (lines 806-831) -/

/-- `response_text.find('{')` followed by slicing: the suffix starting at the
first `{`, when one exists. -/
def findBraceTail (cs : List Char) : Option (List Char) :=
  if cs.any (fun c => c = '{') then some (cs.dropWhile (fun c => c ≠ '{')) else none

/-- The brace-depth scan: starting depth `depth`, the number of characters up
to and including the `}` at which the depth first returns to zero, `none` if
it never does (in which case the source keeps `json_end = json_start` and the
slice is empty). -/
def scanLen : List Char → Int → Option Nat
  | [], _ => none
  | c :: cs, depth =>
      let d2 := if c = '{' then depth + 1 else if c = '}' then depth - 1 else depth
      if c = '}' ∧ d2 = 0 then some 1
      else (scanLen cs d2).map (fun k => k + 1)

/-- The extracted candidate slice `response_text[json_start:json_end]`. -/
def extractCandidate (t : String) : String :=
  match findBraceTail t.data with
  | some tail => ⟨tail.take ((scanLen tail 0).getD 0)⟩
  | none => ""

/-- The judge-result record: the dict returned by `llm_judge`, with `none`
for absent keys (and Python `None` for the `verdict` value). -/
structure JudgeResult where
  verdict : Option JValue
  gaps : Option JValue
  summary : Option JValue
  raw : Option JValue
  error : Option String

/-- An error result `{"verdict": None, "error": msg}`. -/
def mkError (msg : String) : JudgeResult :=
  ⟨none, none, none, none, some msg⟩

/-- The success result built from the parsed object: lift `verdict`, `gaps`
(default empty list), `summary` (default empty string), retain the full
parsed object, no error. -/
def mkOk (kvs : List (String × JValue)) : JudgeResult :=
  { verdict := jlookup kvs "verdict"
    gaps := some ((jlookup kvs "gaps").getD (.arr []))
    summary := some ((jlookup kvs "summary").getD (.str ""))
    raw := some (.obj kvs)
    error := none }

/-- The decoder on the fence-stripped working text: locate the first `{`,
brace scan, `json.loads` on the slice, then lift `verdict` / `gaps` /
`summary` and retain the full parsed object; any failure produces the
`Could not parse judge response` error result with a 200-character snippet. -/
def decodeWorking (t : String) : JudgeResult :=
  match findBraceTail t.data with
  | none => mkError ("Could not parse judge response: " ++ pyTake t 200)
  | some _ =>
    match jsonParseFull (extractCandidate t).data with
    | some (.obj kvs) => mkOk kvs
    | _ => mkError ("Could not parse judge response: " ++ pyTake t 200)

/-- The decoder applied to the raw response text. -/
def decodeJudge (s : String) : JudgeResult :=
  decodeWorking (stripFence s)

/-! ## `llm_judge` response handling (lines 786-797, 827-831)

The whole body runs inside `try ... except Exception as e: return
{"verdict": None, "error": str(e)[:100]}`, so every failure — including
exceptions raised while subscripting a malformed response — becomes an error
result.  The outcome of the awaited HTTP call is modelled explicitly. -/

/-- Outcome of the `session.post` call: an exception raised inside the `try`
block (transport failure, ...), or a response with its HTTP status, raw body
text (used by the non-200 branch) and JSON-parsed body (`none` when
`resp.json()` itself raises). -/
inductive ApiOutcome where
  | exn (msg : String)
  | response (status : Nat) (body : String) (data : Option JValue)

/-- Python falsiness of `data.get("choices")` as used by
`if not data.get("choices")`. -/
def jFalsy : Option JValue → Bool
  | none => true
  | some .null => true
  | some (.bool b) => !b
  | some (.num n) => n = 0
  | some (.str s) => s = ""
  | some (.arr xs) => xs.isEmpty
  | some (.obj kvs) => kvs.isEmpty

/-- `data["choices"][0]["message"]["content"] or ""` followed by the string
operations applied to `response_text`: `.ok` carries the content string, and
`.error` carries a modelled message for the exception Python would raise on
that shape (caught by the enclosing `try`). -/
def getContent (choices : JValue) : Except String String :=
  match choices with
  | .arr (c0 :: _) =>
    match c0 with
    | .obj kvs =>
      match jlookup kvs "message" with
      | some (.obj mkvs) =>
        match jlookup mkvs "content" with
        | some (.str s) => .ok s
        | some .null => .ok ""
        | some (.bool false) => .ok ""
        | some (.bool true) => .error "TypeError: argument of type bool is not iterable"
        | some (.num n) =>
            if n = 0 then .ok ""
            else .error "TypeError: argument of type int is not iterable"
        | some (.arr xs) =>
            if xs.isEmpty then .ok ""
            else .error "AttributeError: list object has no attribute find"
        | some (.obj okvs) =>
            if okvs.isEmpty then .ok ""
            else .error "AttributeError: dict object has no attribute find"
        | none => .error "KeyError: content"
      | some _ => .error "TypeError: message is not subscriptable"
      | none => .error "KeyError: message"
    | _ => .error "TypeError: choice is not subscriptable"
  | .arr [] => .error "IndexError: list index out of range"
  | _ => .error "TypeError: choices is not subscriptable"

/-- `data["choices"][0].get("finish_reason", "")` (the shapes that would
raise were already rejected by `getContent`). -/
def getFinish (choices : JValue) : JValue :=
  match choices with
  | .arr (.obj kvs :: _) => (jlookup kvs "finish_reason").getD (.str "")
  | _ => .str ""

/-- `finish_reason == "length"`. -/
def isLengthReason : JValue → Bool
  | .str s => s = "length"
  | _ => false

/-- The `llm_judge` pipeline from the completion call onward: non-200 status,
missing/falsy `choices`, malformed choice shapes and the empty-content /
`finish_reason == "length"` truncation condition each produce an error result
without invoking the decoder; otherwise the response text is decoded. -/
def llmJudgeOutcome (o : ApiOutcome) : JudgeResult :=
  match o with
  | .exn msg => mkError (pyTake msg 100)
  | .response status body data =>
    if status ≠ 200 then mkError ("API error: " ++ pyTake body 100)
    else
      match data with
      | none => mkError "JSONDecodeError"
      | some d =>
        match d with
        | .obj dk =>
          let choices := jlookup dk "choices"
          if jFalsy choices then
            mkError ("No choices in response: " ++ ⟨pyRepr d⟩)
          else
            match choices with
            | some ch =>
              match getContent ch with
              | .error e => mkError (pyTake e 100)
              | .ok response_text =>
                let finish := getFinish ch
                let usage := (jlookup dk "usage").getD (.obj [])
                if response_text = "" ∧ isLengthReason finish then
                  mkError ("Empty response (finish_reason: length). Usage: " ++
                    (⟨pyRepr usage⟩ : String) ++ ". Model may need higher max_tokens.")
                else decodeJudge response_text
            | none => mkError "unreachable: falsy choices handled above"
        | _ => mkError "AttributeError: response body is not a dict"

/-! ## Well-formedness for the serialization round trip

`goodChar` admits printable ASCII without braces or backticks: braces inside
string literals derail the brace scan, and backtick runs can create a spurious
code fence (see the corresponding counterexamples); quotes and backslashes are
fine because `json.dumps` escapes them. -/

/-- Characters whose serialization interacts with nothing in the decoder. -/
def goodChar (c : Char) : Bool :=
  32 ≤ c.toNat ∧ c.toNat ≤ 126 ∧ c ≠ '{' ∧ c ≠ '}' ∧ c ≠ '`'

/-- All characters of a string are good. -/
def goodStr (s : String) : Bool :=
  s.data.all goodChar

/-- Key lists without duplicates (dicts produced by `json.loads`). -/
def distinctKeys : List String → Bool
  | [] => true
  | k :: ks => (!ks.contains k) && distinctKeys ks

mutual

/-- Well-formed values for the round trip: good strings throughout and
duplicate-free object keys. -/
def goodV : JValue → Bool
  | .null => true
  | .bool _ => true
  | .num _ => true
  | .str s => goodStr s
  | .arr xs => goodElems xs
  | .obj kvs => goodMembers kvs && distinctKeys (kvs.map Prod.fst)

/-- All elements well formed. -/
def goodElems : List JValue → Bool
  | [] => true
  | v :: vs => goodV v && goodElems vs

/-- All members well formed (keys good, values recursively good). -/
def goodMembers : List (String × JValue) → Bool
  | [] => true
  | (k, v) :: kvs => goodStr k && goodV v && goodMembers kvs

end

mutual

/-- Fuel bound for parsing a serialized value. -/
def jsize : JValue → Nat
  | .arr xs => 1 + esize xs
  | .obj kvs => 1 + msize kvs
  | _ => 1

/-- Fuel bound for parsing serialized array elements. -/
def esize : List JValue → Nat
  | [] => 0
  | v :: vs => 1 + jsize v + esize vs

/-- Fuel bound for parsing serialized object members. -/
def msize : List (String × JValue) → Nat
  | [] => 0
  | (_, v) :: kvs => 1 + jsize v + msize kvs

end

/-- The continuation after a serialized number must not begin with a digit
(numbers are the only tokens the parser reads greedily). -/
def noDigitHead : List Char → Bool
  | [] => true
  | c :: _ => !c.isDigit

/-! ## Theorems: budget planner -/

/-- C1: for every `span_count ≥ 0` and every ceiling/reserve/hierarchical
configuration (and any floor ≤ cap), the per-field budget
`available // max(1, estimated_fields)` clamped with
`max(min_per_field, min(max_per_field, ·))` lies within
`[min_per_field, max_per_field]`; the divisor `max 1 (estimated_fields)` is
positive, so in particular `span_count = 0` causes no division by zero. -/
theorem per_field_budget_within_bounds (total reserve hier : Int)
    (span_count : Nat) (minPF maxPF : Int) (hmm : minPF ≤ maxPF) :
    minPF ≤ per_field_budget total reserve hier span_count minPF maxPF ∧
    per_field_budget total reserve hier span_count minPF maxPF ≤ maxPF ∧
    0 < max 1 (estimated_fields span_count : Int) := by
  unfold per_field_budget
  refine ⟨le_max_left _ _, max_le hmm (min_le_left _ _), ?_⟩
  exact lt_of_lt_of_le one_pos (le_max_left _ _)

/-- Witness for `per_field_budget_within_bounds` at the module's constants
with zero spans and no hierarchical context. -/
theorem per_field_budget_within_bounds_witness :
    (1500 : Int) ≤ per_field_budget 800000 100000 0 0 1500 8000 ∧
    per_field_budget 800000 100000 0 0 1500 8000 ≤ 8000 ∧
    0 < max 1 (estimated_fields 0 : Int) :=
  per_field_budget_within_bounds 800000 100000 0 0 1500 8000 (by norm_num)

/-- C7: the end-to-end scenario of 10 spans with hierarchical context 5,000,
ceiling 800,000 and reserve 100,000: available 695,000, estimated fields 15,
raw floor-divided budget 46,333, clamped per-field budget 8,000. -/
theorem sessionBudget_scenario :
    availableChars TOTAL_CHARS RESERVE_CHARS 5000 = 695000 ∧
    estimated_fields 10 = 15 ∧
    Int.fdiv (availableChars TOTAL_CHARS RESERVE_CHARS 5000)
      (max 1 (estimated_fields 10 : Int)) = 46333 ∧
    sessionBudget 5000 10 = 8000 := by
  refine ⟨by decide, by decide, by decide, by decide⟩

/-! ## Theorems: per-field truncation -/

/-- C2 counterexample: `clean` strips leading/trailing whitespace, so a text
whose length is within the budget is not always returned unchanged:
`clean " a" 5 = "a" ≠ " a"`. -/
theorem clean_strips_counterexample : clean " a" 5 ≠ " a" := by decide

/-- C2 amended: the truncation round trip holds for the whitespace-stripped
text: empty text maps to the empty string; when the stripped text fits the
budget it is returned (stripped, not verbatim); when it exceeds the budget the
result is exactly the first `budget` characters of the stripped text followed
by the marker whose embedded elided-count is exactly the stripped length minus
the budget. -/
theorem clean_spec (text : String) (budget : Nat) :
    (text = "" → clean text budget = "") ∧
    ((pyStrip text).length ≤ budget → clean text budget = pyStrip text) ∧
    (budget < (pyStrip text).length →
      clean text budget =
        pyTake (pyStrip text) budget ++
          truncMarker ((pyStrip text).length - budget) ∧
      (pyTake (pyStrip text) budget).length = budget) := by
  refine ⟨fun h => by simp [clean, h], fun h => ?_, fun h => ?_⟩
  · by_cases he : text = ""
    · subst he; simp [clean]; rfl
    · simp only [clean, he, if_false]
      rw [if_neg]; omega
  · constructor
    · by_cases he : text = ""
      · exfalso
        have : pyStrip text = "" := by subst he; rfl
        rw [this] at h; simp [String.length] at h
      · simp only [clean, he, if_false]
        rw [if_pos]; omega
    · show (List.take budget (pyStrip text).data).length = budget
      rw [List.length_take]
      have : (pyStrip text).data.length = (pyStrip text).length := rfl
      omega

/-- Witness for `clean_spec`: each branch applied at a concrete input. -/
theorem clean_spec_witness :
    clean "" 4 = "" ∧
    clean " a" 5 = pyStrip " a" ∧
    clean "abcdef" 3 =
      pyTake (pyStrip "abcdef") 3 ++ truncMarker ((pyStrip "abcdef").length - 3) :=
  ⟨(clean_spec "" 4).1 rfl, (clean_spec " a" 5).2.1 (by decide),
    ((clean_spec "abcdef" 3).2.2 (by decide)).1⟩

/-! ## Helper lemmas: fence stripping only uses characters of the input -/

/-- Reduction of `splitAtTriple` on a non-triple head. -/
theorem splitAtTriple_cons (d : Char) (rest : List Char)
    (hne : ∀ r, d = '`' → rest = '`' :: '`' :: r → False) :
    splitAtTriple (d :: rest) =
      (splitAtTriple rest).map (fun p => (d :: p.1, p.2)) := by
  rw [splitAtTriple.eq_def]
  split
  · next r heq =>
      exfalso
      injection heq with h1 h2
      exact hne r h1 h2
  · next x c2 rest2 hguard heq =>
      injection heq with h1 h2
      subst h1
      subst h2
      rfl
  · next x heq => exact absurd heq (by simp)

/-- Characters of the part before the first triple-backtick come from the
input. -/
theorem splitAtTriple_mem (c : Char) (cs : List Char) :
    ∀ b a, splitAtTriple cs = some (b, a) → c ∈ b → c ∈ cs := by
  induction cs using splitAtTriple.induct with
  | case1 rest =>
      intro b a h hc
      simp [splitAtTriple] at h
      rcases h with ⟨hb, _⟩
      subst hb
      simp at hc
  | case2 d rest hne ih =>
      intro b a h hc
      rw [splitAtTriple_cons d rest hne] at h
      rcases Option.map_eq_some'.mp h with ⟨⟨p1, p2⟩, hsp, hfb⟩
      have hb : d :: p1 = b := congrArg Prod.fst hfb
      subst hb
      rcases List.mem_cons.mp hc with h3 | h3
      · subst h3
        exact List.mem_cons_self _ _
      · exact List.mem_cons_of_mem _ (ih p1 p2 hsp h3)
  | case3 =>
      intro b a h hc
      simp [splitAtTriple] at h

/-- Dropping the optional `json` tag keeps a sublist of the input. -/
theorem dropJsonTag_mem (c : Char) (l : List Char) (h : c ∈ dropJsonTag l) :
    c ∈ l := by
  unfold dropJsonTag at h
  split at h
  · split at h
    · exact List.mem_cons_of_mem _ (List.mem_cons_of_mem _
        (List.mem_cons_of_mem _ (List.mem_cons_of_mem _ h)))
    · exact h
  · exact h

/-- `str.strip()` keeps a subset of the input characters. -/
theorem pyStripL_mem (c : Char) (cs : List Char) (h : c ∈ pyStripL cs) :
    c ∈ cs := by
  unfold pyStripL at h
  rw [List.mem_reverse] at h
  have h2 := (List.dropWhile_sublist (l := (cs.dropWhile pyWs).reverse) (p := pyWs)).subset h
  rw [List.mem_reverse] at h2
  exact (List.dropWhile_sublist (l := cs) (p := pyWs)).subset h2

/-- Reduction of the fence search at a triple-backtick whose match attempt
succeeds. -/
theorem fenceInnerAux_triple_some (n : Nat) (rest s r2 : List Char)
    (hsplit : splitAtTriple ((dropJsonTag rest).dropWhile pyWs) = some (s, r2)) :
    fenceInnerAux (n + 1) ('`' :: '`' :: '`' :: rest) = some s := by
  rw [fenceInnerAux.eq_def]
  simp only [hsplit]

/-- Reduction of the fence search at a triple-backtick with no closing
marker: resume one character further. -/
theorem fenceInnerAux_triple_none (n : Nat) (rest : List Char)
    (hsplit : splitAtTriple ((dropJsonTag rest).dropWhile pyWs) = none) :
    fenceInnerAux (n + 1) ('`' :: '`' :: '`' :: rest) =
      fenceInnerAux n ('`' :: '`' :: rest) := by
  rw [fenceInnerAux.eq_def]
  simp only [hsplit]

/-- Reduction of the fence search on a non-triple head. -/
theorem fenceInnerAux_cons (n : Nat) (hd : Char) (rest : List Char)
    (hguard : ∀ r, hd = '`' → rest = '`' :: '`' :: r → False) :
    fenceInnerAux (n + 1) (hd :: rest) = fenceInnerAux n rest := by
  rw [fenceInnerAux.eq_def]
  split
  · next x1 x2 heq => exact absurd heq (by omega)
  · next x1 x2 heq hne => exact absurd heq (by simp)
  · next x1 x2 m rest2 heqn heq =>
      exfalso
      injection heq with h1 h2
      exact hguard _ h1 h2
  · next x1 x2 m hd2 rest2 hg heqn heq =>
      injection heqn with h0
      injection heq with h1 h2
      subst h0
      subst h1
      subst h2
      rfl

/-- The search fails with no fuel. -/
theorem fenceInnerAux_zero (cs : List Char) : fenceInnerAux 0 cs = none := by
  cases cs with
  | nil => rfl
  | cons c rest => rfl

/-- The search fails on the empty text. -/
theorem fenceInnerAux_nil (n : Nat) : fenceInnerAux n [] = none := by
  cases n with
  | zero => rfl
  | succ n => rfl

/-- Characters of a matched fence group come from the input. -/
theorem fenceInnerAux_mem (c : Char) :
    ∀ n cs inner, fenceInnerAux n cs = some inner → c ∈ inner → c ∈ cs := by
  intro n cs
  induction n, cs using fenceInnerAux.induct with
  | case1 x =>
      intro inner h
      exact absurd h (by simp [fenceInnerAux_zero])
  | case2 t ht =>
      intro inner h
      exact absurd h (by simp [fenceInnerAux_nil])
  | case3 n rest s rest2 hsplit =>
      intro inner h hin
      rw [fenceInnerAux_triple_some n rest s rest2 hsplit] at h
      have hs : inner = s := (Option.some_inj.mp h).symm
      subst hs
      have h1 := splitAtTriple_mem c _ _ _ hsplit hin
      have h2 := (List.dropWhile_sublist (p := pyWs)).subset h1
      have h3 := dropJsonTag_mem c _ h2
      exact List.mem_cons_of_mem _ (List.mem_cons_of_mem _ (List.mem_cons_of_mem _ h3))
  | case4 n rest hsplit ih =>
      intro inner h hin
      rw [fenceInnerAux_triple_none n rest hsplit] at h
      exact List.mem_cons_of_mem _ (ih inner h hin)
  | case5 n hd rest hguard ih =>
      intro inner h hin
      rw [fenceInnerAux_cons n hd rest hguard] at h
      exact List.mem_cons_of_mem _ (ih inner h hin)

/-- If a character is absent from the response text it is absent from the
fence-stripped working text. -/
theorem stripFence_not_mem (c : Char) (s : String) (h : c ∉ s.data) :
    c ∉ (stripFence s).data := by
  unfold stripFence
  cases hf : fenceInner s.data with
  | none => exact h
  | some inner =>
      intro hc
      unfold fenceInner at hf
      exact h (fenceInnerAux_mem c _ _ inner hf (pyStripL_mem c inner hc))

/-- Without any backtick in the text there is no fence match at any fuel. -/
theorem fenceInnerAux_no_tick :
    ∀ n cs, '`' ∉ cs → fenceInnerAux n cs = none := by
  intro n cs
  induction n, cs using fenceInnerAux.induct with
  | case1 x => intro h; exact fenceInnerAux_zero x
  | case2 t ht => intro h; exact fenceInnerAux_nil t
  | case3 n rest s rest2 hsplit =>
      intro h
      exact absurd (List.mem_cons_self _ _) h
  | case4 n rest hsplit ih =>
      intro h
      exact absurd (List.mem_cons_self _ _) h
  | case5 n hd rest hguard ih =>
      intro h
      rw [fenceInnerAux_cons n hd rest hguard]
      exact ih (fun hm => h (List.mem_cons_of_mem _ hm))

/-! ## Theorems: response decoder -/

/-- C3: the brace-depth scan extracts the first depth-balanced object
starting at the first brace, handling the nested object and ignoring the
trailing commentary, and the decoder retains exactly the nested parse. -/
theorem extract_nested_braces :
    extractCandidate "\x7b\"a\": \x7b\"b\": 1\x7d, \"c\": \"x\"\x7d trailing text" =
      "\x7b\"a\": \x7b\"b\": 1\x7d, \"c\": \"x\"\x7d" ∧
    (decodeJudge "\x7b\"a\": \x7b\"b\": 1\x7d, \"c\": \"x\"\x7d trailing text").raw =
      some (.obj [("a", .obj [("b", .num 1)]), ("c", .str "x")]) ∧
    (decodeJudge "\x7b\"a\": \x7b\"b\": 1\x7d, \"c\": \"x\"\x7d trailing text").error = none :=
  ⟨rfl, rfl, rfl⟩

/-- C4: a triple-backtick fenced block (tagged `json`) is used as the working
text, so the fenced scenario decodes to verdict `PASS` with empty gaps; and a
text with no backtick at all is left unchanged by fence stripping. -/
theorem fence_stripping :
    stripFence "Here is the result:\n```json\n\x7b\"verdict\":\"PASS\",\"gaps\":[]\x7d\n```\nThanks" =
      "\x7b\"verdict\":\"PASS\",\"gaps\":[]\x7d" ∧
    (decodeJudge "Here is the result:\n```json\n\x7b\"verdict\":\"PASS\",\"gaps\":[]\x7d\n```\nThanks").verdict =
      some (.str "PASS") ∧
    (decodeJudge "Here is the result:\n```json\n\x7b\"verdict\":\"PASS\",\"gaps\":[]\x7d\n```\nThanks").gaps =
      some (.arr []) ∧
    (∀ s : String, '`' ∉ s.data → stripFence s = s) := by
  refine ⟨rfl, rfl, rfl, fun s h => ?_⟩
  unfold stripFence fenceInner
  rw [fenceInnerAux_no_tick _ _ h]

/-- Witness for `fence_stripping` (the quantified conjunct at a concrete
input). -/
theorem fence_stripping_witness : stripFence "plain text" = "plain text" :=
  fence_stripping.2.2.2 "plain text" (by decide)

/-- C5: when the working text contains no `{`, the decoder returns the
explicit unparseable-response error result (verdict `None`, no payload)
instead of raising. -/
theorem decode_no_brace (s : String) (h : '{' ∉ s.data) :
    (decodeJudge s).error =
      some ("Could not parse judge response: " ++ pyTake (stripFence s) 200) ∧
    (decodeJudge s).verdict = none ∧ (decodeJudge s).raw = none := by
  have h2 : '{' ∉ (stripFence s).data := stripFence_not_mem _ _ h
  have hbt : findBraceTail (stripFence s).data = none := by
    unfold findBraceTail
    rw [if_neg]
    simp only [List.any_eq_true, decide_eq_true_eq, not_exists, not_and]
    intro x hx
    intro heq
    exact h2 (heq ▸ hx)
  unfold decodeJudge decodeWorking
  rw [hbt]
  exact ⟨rfl, rfl, rfl⟩

/-- Witness for `decode_no_brace` at the spec's concrete input. -/
theorem decode_no_brace_witness :
    (decodeJudge "no json here").error =
      some ("Could not parse judge response: " ++ pyTake (stripFence "no json here") 200) ∧
    (decodeJudge "no json here").verdict = none ∧
    (decodeJudge "no json here").raw = none :=
  decode_no_brace "no json here" (by decide)

/-- C9: the naive scan counts braces inside string literals: on the
well-formed object whose string value contains a literal closing brace, the
extracted slice is a proper prefix (not the object), and decoding errors. -/
theorem brace_scan_inside_string :
    extractCandidate "\x7b\"a\": \"\x7d\"\x7d" = "\x7b\"a\": \"\x7d" ∧
    extractCandidate "\x7b\"a\": \"\x7d\"\x7d" ≠ "\x7b\"a\": \"\x7d\"\x7d" ∧
    (decodeJudge "\x7b\"a\": \"\x7d\"\x7d").error.isSome = true :=
  ⟨rfl, by decide, rfl⟩

/-- C10: when the slice parses to an object with no `verdict` key, the result
carries verdict `None` and no `error` field. -/
theorem verdict_absent_no_error (s : String) (kvs : List (String × JValue))
    (hparse : jsonParseFull (extractCandidate (stripFence s)).data = some (.obj kvs))
    (hv : jlookup kvs "verdict" = none) :
    (decodeJudge s).verdict = none ∧ (decodeJudge s).error = none := by
  unfold decodeJudge decodeWorking
  cases hbt : findBraceTail (stripFence s).data with
  | none =>
      exfalso
      unfold extractCandidate at hparse
      rw [hbt] at hparse
      have hnone : jsonParseFull (("" : String)).data = none := rfl
      rw [hnone] at hparse
      exact Option.noConfusion hparse
  | some tail =>
      rw [hparse]
      exact ⟨hv, rfl⟩

/-- Witness for `verdict_absent_no_error` on a concrete verdict-free object. -/
theorem verdict_absent_no_error_witness :
    (decodeJudge "\x7b\"gaps\": [], \"summary\": \"ok\"\x7d").verdict = none ∧
    (decodeJudge "\x7b\"gaps\": [], \"summary\": \"ok\"\x7d").error = none :=
  verdict_absent_no_error "\x7b\"gaps\": [], \"summary\": \"ok\"\x7d"
    [("gaps", .arr []), ("summary", .str "ok")] rfl rfl

/-- C6: every judge-pipeline failure is surfaced as a result carrying an
`error` field and never raised: an exception from the network call, a
non-success HTTP status, a falsy/absent `choices` list, an unreadable body,
and — distinctly — empty content with `finish_reason == "length"`, which is
reported with the usage metadata and handled before the decoder runs. -/
theorem llm_judge_errors :
    (∀ msg, (llmJudgeOutcome (.exn msg)).error = some (pyTake msg 100)) ∧
    (∀ status body data, status ≠ 200 →
      (llmJudgeOutcome (.response status body data)).error =
        some ("API error: " ++ pyTake body 100)) ∧
    (∀ body, (llmJudgeOutcome (.response 200 body none)).error.isSome = true) ∧
    (∀ body dk, jFalsy (jlookup dk "choices") = true →
      (llmJudgeOutcome (.response 200 body (some (.obj dk)))).error =
        some ("No choices in response: " ++ (⟨pyRepr (.obj dk)⟩ : String))) ∧
    ((llmJudgeOutcome (.response 200 ""
        (some (.obj [("choices", .arr [.obj [("message", .obj [("content", .str "")]),
          ("finish_reason", .str "length")]]),
          ("usage", .obj [("completion_tokens", .num 16000)])])))).error =
      some ("Empty response (finish_reason: length). Usage: " ++
        (⟨pyRepr (.obj [("completion_tokens", .num 16000)])⟩ : String) ++
        ". Model may need higher max_tokens.") ∧
     (llmJudgeOutcome (.response 200 ""
        (some (.obj [("choices", .arr [.obj [("message", .obj [("content", .str "")]),
          ("finish_reason", .str "length")]]),
          ("usage", .obj [("completion_tokens", .num 16000)])])))).raw = none) := by
  refine ⟨fun msg => rfl, fun status body data h => ?_, fun body => rfl,
    fun body dk h => ?_, rfl, rfl⟩
  · simp only [llmJudgeOutcome]
    rw [if_pos h]
    rfl
  · simp only [llmJudgeOutcome]
    rw [if_neg (by simp), if_pos h]
    rfl

/-- Witness for `llm_judge_errors`: each failure mode at a concrete input. -/
theorem llm_judge_errors_witness :
    (llmJudgeOutcome (.exn "connection reset")).error =
      some (pyTake "connection reset" 100) ∧
    (llmJudgeOutcome (.response 500 "oops" none)).error =
      some ("API error: " ++ pyTake "oops" 100) ∧
    (llmJudgeOutcome (.response 200 "" none)).error.isSome = true ∧
    (llmJudgeOutcome (.response 200 "" (some (.obj [])))).error =
      some ("No choices in response: " ++ (⟨pyRepr (.obj [])⟩ : String)) :=
  ⟨llm_judge_errors.1 "connection reset",
    llm_judge_errors.2.1 500 "oops" none (by decide),
    llm_judge_errors.2.2.1 "",
    llm_judge_errors.2.2.2.1 "" [] (by decide)⟩

/-! ## Round-trip development: decimal digits -/

/-- `digitChar` always yields a digit character. -/
theorem digitChar_isDigit (d : Nat) : (digitChar d).isDigit = true := by
  unfold digitChar
  split_ifs <;> decide

/-- Value of `digitChar` for an actual digit. -/
theorem digitChar_toNat (d : Nat) (h : d < 10) : (digitChar d).toNat = 48 + d := by
  unfold digitChar
  split_ifs with h0 h1 h2 h3 h4 h5 h6 h7 h8 h9 <;>
    first
    | (subst_vars; decide)
    | omega

/-- Folding the reversed digit list recovers the number (with an arbitrary
accumulator). -/
theorem foldl_natDigitsAux (fuel : Nat) :
    ∀ m a, m ≤ fuel →
      List.foldl (fun acc c => 10 * acc + (c.toNat - 48)) a
          ((natDigitsAux fuel m).reverse) =
        a * 10 ^ (natDigitsAux fuel m).length + m := by
  induction fuel with
  | zero =>
      intro m a hm
      have : m = 0 := by omega
      subst this
      simp [natDigitsAux]
  | succ fuel ih =>
      intro m a hm
      by_cases hz : m = 0
      · subst hz
        simp [natDigitsAux]
      · have hstep : natDigitsAux (fuel + 1) m =
            digitChar (m % 10) :: natDigitsAux fuel (m / 10) := by
          simp [natDigitsAux, hz]
        have hdiv : m / 10 ≤ fuel := by
          have h1 : m / 10 < m := Nat.div_lt_self (Nat.pos_of_ne_zero hz) (by omega)
          omega
        rw [hstep]
        rw [List.reverse_cons, List.foldl_append]
        rw [ih (m / 10) a hdiv]
        have hval : (digitChar (m % 10)).toNat = 48 + m % 10 :=
          digitChar_toNat _ (Nat.mod_lt _ (by omega))
        simp only [List.foldl_cons, List.foldl_nil, hval, List.length_cons]
        have hmod := Nat.div_add_mod m 10
        ring_nf
        omega

/-- `digitsToNat` inverts `natDigits`. -/
theorem digitsToNat_natDigits (m : Nat) : digitsToNat (natDigits m) = m := by
  by_cases hz : m = 0
  · subst hz; decide
  · unfold digitsToNat natDigits
    rw [if_neg hz]
    have := foldl_natDigitsAux m m 0 (le_refl m)
    simpa using this

/-- All characters produced by `natDigitsAux` are digits. -/
theorem natDigitsAux_all_digit (fuel : Nat) :
    ∀ m c, c ∈ natDigitsAux fuel m → c.isDigit = true := by
  induction fuel with
  | zero => intro m c h; simp [natDigitsAux] at h
  | succ fuel ih =>
      intro m c h
      by_cases hz : m = 0
      · subst hz; simp [natDigitsAux] at h
      · simp only [natDigitsAux, if_neg hz, List.mem_cons] at h
        rcases h with h | h
        · subst h; exact digitChar_isDigit _
        · exact ih _ _ h

/-- All characters of `natDigits` are digits. -/
theorem natDigits_all_digit (m : Nat) (c : Char) (h : c ∈ natDigits m) :
    c.isDigit = true := by
  unfold natDigits at h
  split_ifs at h with hz
  · rcases List.mem_singleton.mp h with rfl
    decide
  · exact natDigitsAux_all_digit m m c (List.mem_reverse.mp h)

/-- `natDigits` is never empty. -/
theorem natDigits_ne_nil (m : Nat) : natDigits m ≠ [] := by
  unfold natDigits
  split_ifs with hz
  · simp
  · intro h
    rw [List.reverse_eq_nil_iff] at h
    cases hm : m with
    | zero => exact hz hm
    | succ k =>
        rw [hm] at h
        have : natDigitsAux (k + 1) m = digitChar (m % 10) :: natDigitsAux k (m / 10) := by
          simp [natDigitsAux, hz]
        rw [hm] at this
        rw [this] at h
        exact List.noConfusion h

/-- A digit character is none of the parser's special token heads. -/
theorem isDigit_facts (c : Char) (h : c.isDigit = true) :
    jsonWs c = false ∧ c ≠ 'n' ∧ c ≠ 't' ∧ c ≠ 'f' ∧ c ≠ '"' ∧ c ≠ '[' ∧
      c ≠ '{' ∧ c ≠ '-' ∧ c ≠ ']' ∧ c ≠ '}' ∧ c ≠ '`' ∧ c ≠ ',' := by
  have hne : ∀ d : Char, d.isDigit = false → c ≠ d := by
    intro d hd he
    rw [he, hd] at h
    exact Bool.noConfusion h
  have hw : jsonWs c = false := by
    simp only [jsonWs]
    rw [decide_eq_false]
    rintro (rfl | rfl | rfl | rfl) <;> simp_all
  exact ⟨hw, hne _ (by decide), hne _ (by decide), hne _ (by decide),
    hne _ (by decide), hne _ (by decide), hne _ (by decide), hne _ (by decide),
    hne _ (by decide), hne _ (by decide), hne _ (by decide), hne _ (by decide)⟩

/-- `takeWhile` / `dropWhile` on a satisfied prefix followed by a failing
head. -/
theorem takeWhile_append_eq (p : Char → Bool) :
    ∀ l r, (∀ c ∈ l, p c = true) → (∀ c cs, r = c :: cs → p c = false) →
      (l ++ r).takeWhile p = l ∧ (l ++ r).dropWhile p = r := by
  intro l
  induction l with
  | nil =>
      intro r hl hr
      cases r with
      | nil => simp
      | cons c cs =>
          have := hr c cs rfl
          simp [List.takeWhile_cons, List.dropWhile_cons, this]
  | cons a l ih =>
      intro r hl hr
      have ha : p a = true := hl a (List.mem_cons_self _ _)
      have := ih r (fun c hc => hl c (List.mem_cons_of_mem _ hc)) hr
      simp [List.takeWhile_cons, List.dropWhile_cons, ha, this.1, this.2]

/-- `skipWs` does nothing on a non-whitespace head. -/
theorem skipWs_cons_false (c : Char) (cs : List Char) (h : jsonWs c = false) :
    skipWs (c :: cs) = c :: cs := by
  simp [skipWs, h]

/-- `skipWs` drops a whitespace head. -/
theorem skipWs_cons_true (c : Char) (cs : List Char) (h : jsonWs c = true) :
    skipWs (c :: cs) = skipWs cs := by
  simp [skipWs, h]

/-- Components of `goodChar`. -/
theorem goodChar_spec (c : Char) (h : goodChar c = true) :
    32 ≤ c.toNat ∧ c.toNat ≤ 126 ∧ c ≠ '{' ∧ c ≠ '}' ∧ c ≠ '`' := by
  simpa [goodChar] using h

/-- `parseValue` on a digit-headed input reduces to number parsing. -/
theorem parseValue_digit_head (n : Nat) (c : Char) (cs : List Char)
    (h : c.isDigit = true) :
    parseValue (n + 1) (c :: cs) =
      match parseNat (c :: cs) with
      | some (m, r) => some (.num (m : Int), r)
      | none => none := by
  obtain ⟨hws, hn, ht, hf, hq, hlb, hlc, hm, _, _, _, _⟩ := isDigit_facts c h
  rw [parseValue.eq_2]
  rw [skipWs_cons_false c cs hws]
  split
  · next r heq => exact absurd (by injection heq) hn
  · next r heq => exact absurd (by injection heq) ht
  · next r heq => exact absurd (by injection heq) hf
  · next r heq => exact absurd (by injection heq) hq
  · next r heq => exact absurd (by injection heq) hlb
  · next r heq => exact absurd (by injection heq) hlc
  · next r heq => exact absurd (by injection heq) hm
  · rfl

/-- `strStep` consumes an unescaped safe character literally. -/
theorem strStep_safe (c : Char) (rest : List Char)
    (h1 : c ≠ '"') (h2 : c ≠ '\\') (h3 : 32 ≤ c.toNat) :
    strStep (c :: rest) = some (some c, rest) := by
  simp only [strStep]
  rw [if_neg h1, if_neg h2, if_neg (by omega)]

/-- One content step of the fueled string-body parser. -/
theorem parseStringBodyAux_step (n : Nat) (cs : List Char) (ch : Char)
    (rest : List Char) (h : strStep cs = some (some ch, rest)) :
    parseStringBodyAux (n + 1) cs =
      (parseStringBodyAux n rest).map (fun p => (ch :: p.1, p.2)) := by
  rw [parseStringBodyAux.eq_2, h]

/-- For a good character the serializer emits the identity or one of the two
quote/backslash escapes. -/
theorem serStrChar_eq_of_good (c : Char) (h : goodChar c = true) :
    serStrChar c =
      if c = '"' then ['\\', '"']
      else if c = '\\' then ['\\', '\\'] else [c] := by
  obtain ⟨hlo, hhi, _, _, _⟩ := goodChar_spec c h
  unfold serStrChar
  split_ifs with g1 g2 g3 g4 g5 g6 g7 g8 <;>
    first
    | rfl
    | (exfalso; subst_vars; revert hlo; decide)
    | (exfalso; omega)

/-- The fueled string-body parser inverts `serStrBody` on good characters,
for any sufficient fuel. -/
theorem parseStringBodyAux_ser (s : List Char) :
    ∀ n rest, (∀ c ∈ s, goodChar c = true) → s.length + 1 ≤ n →
      parseStringBodyAux n (serStrBody s ++ '"' :: rest) = some (s, rest) := by
  induction s with
  | nil =>
      intro n rest h hn
      obtain ⟨m, rfl⟩ : ∃ m, n = m + 1 := ⟨n - 1, by omega⟩
      rfl
  | cons c cs ih =>
      intro n rest h hn
      obtain ⟨m, rfl⟩ : ∃ m, n = m + 1 := ⟨n - 1, by omega⟩
      have hc := h c (List.mem_cons_self _ _)
      obtain ⟨hlo, hhi, _, _, _⟩ := goodChar_spec c hc
      have ihs := ih m rest (fun d hd => h d (List.mem_cons_of_mem _ hd))
        (by simp only [List.length_cons] at hn; omega)
      show parseStringBodyAux (m + 1)
        (serStrChar c ++ serStrBody cs ++ '"' :: rest) = _
      rw [serStrChar_eq_of_good c hc]
      split_ifs with g1 g2
      · subst g1
        rw [show (['\\', '"'] ++ serStrBody cs ++ '"' :: rest) =
          '\\' :: '"' :: (serStrBody cs ++ '"' :: rest) by simp]
        rw [parseStringBodyAux_step m ('\\' :: '"' :: (serStrBody cs ++ '"' :: rest))
          '"' (serStrBody cs ++ '"' :: rest) rfl, ihs]
        rfl
      · subst g2
        rw [show (['\\', '\\'] ++ serStrBody cs ++ '"' :: rest) =
          '\\' :: '\\' :: (serStrBody cs ++ '"' :: rest) by simp]
        rw [parseStringBodyAux_step m ('\\' :: '\\' :: (serStrBody cs ++ '"' :: rest))
          '\\' (serStrBody cs ++ '"' :: rest) rfl, ihs]
        rfl
      · rw [show ([c] ++ serStrBody cs ++ '"' :: rest) =
          c :: (serStrBody cs ++ '"' :: rest) by simp]
        rw [parseStringBodyAux_step m _ c _
          (strStep_safe c _ g1 g2 hlo), ihs]
        rfl

/-- Every character serializes to at least one character. -/
theorem serStrChar_length_pos (c : Char) : 1 ≤ (serStrChar c).length := by
  unfold serStrChar
  split_ifs <;> simp [uEscape]

/-- The serialized body is at least as long as the string. -/
theorem serStrBody_length_ge (s : List Char) :
    s.length ≤ (serStrBody s).length := by
  induction s with
  | nil => simp [serStrBody]
  | cons c cs ih =>
      show cs.length + 1 ≤ (serStrChar c ++ serStrBody cs).length
      rw [List.length_append]
      have := serStrChar_length_pos c
      omega

/-- `parseStringBody` inverts `serStrBody` on good characters. -/
theorem parseStringBody_serStrBody (s : List Char)
    (h : ∀ c ∈ s, goodChar c = true) (rest : List Char) :
    parseStringBody (serStrBody s ++ '"' :: rest) = some (s, rest) := by
  unfold parseStringBody
  apply parseStringBodyAux_ser s _ rest h
  rw [List.length_append]
  have := serStrBody_length_ge s
  simp only [List.length_cons]
  omega

/-- Characters of a serialized integer: a minus sign or digits. -/
theorem serInt_chars (k : Int) (c : Char) (h : c ∈ serInt k) :
    c = '-' ∨ c.isDigit = true := by
  unfold serInt at h
  split_ifs at h with hk
  · rcases List.mem_cons.mp h with rfl | h
    · exact Or.inl rfl
    · exact Or.inr (natDigits_all_digit _ _ h)
  · exact Or.inr (natDigits_all_digit _ _ h)

/-- A serialized integer is nonempty. -/
theorem serInt_ne_nil (k : Int) : serInt k ≠ [] := by
  unfold serInt
  split_ifs with hk
  · simp
  · exact natDigits_ne_nil _

/-- `parseNat` inverts `natDigits` when the continuation does not start with
a digit. -/
theorem parseNat_natDigits (m : Nat) (rest : List Char)
    (h : noDigitHead rest = true) :
    parseNat (natDigits m ++ rest) = some (m, rest) := by
  have hr : ∀ c cs, rest = c :: cs → c.isDigit = false := by
    intro c cs hc
    subst hc
    simpa [noDigitHead] using h
  have htd := takeWhile_append_eq (fun c => c.isDigit) (natDigits m) rest
    (fun c hc => natDigits_all_digit m c hc) hr
  unfold parseNat
  rw [htd.1, htd.2]
  rw [if_neg (by simpa [List.isEmpty_iff] using natDigits_ne_nil m)]
  rw [digitsToNat_natDigits]

/-- `parseValue` inverts integer serialization when the continuation does not
start with a digit. -/
theorem parseValue_serInt (n : Nat) (k : Int) (rest : List Char)
    (hrest : noDigitHead rest = true) :
    parseValue (n + 1) (serInt k ++ rest) = some (.num k, rest) := by
  by_cases hk : k < 0
  · have hser : serInt k ++ rest = '-' :: (natDigits k.natAbs ++ rest) := by
      unfold serInt
      rw [if_pos hk]
      simp
    rw [hser]
    have hred : parseValue (n + 1) ('-' :: (natDigits k.natAbs ++ rest)) =
        (match parseNat (natDigits k.natAbs ++ rest) with
          | some (m, rest2) => some (JValue.num (-(m : Int)), rest2)
          | none => none) := rfl
    rw [hred, parseNat_natDigits k.natAbs rest hrest]
    show some (JValue.num (-((k.natAbs : Nat) : Int)), rest) = some (JValue.num k, rest)
    have : -((k.natAbs : Nat) : Int) = k := by omega
    rw [this]
  · have hser : serInt k = natDigits k.toNat := by
      unfold serInt
      rw [if_neg hk]
    cases hnd : natDigits k.toNat with
    | nil => exact absurd hnd (natDigits_ne_nil _)
    | cons c cs =>
        have hcdig : c.isDigit = true :=
          natDigits_all_digit k.toNat c (by rw [hnd]; exact List.mem_cons_self _ _)
        rw [hser, hnd, List.cons_append]
        rw [parseValue_digit_head n c (cs ++ rest) hcdig]
        rw [show c :: (cs ++ rest) = (c :: cs) ++ rest by simp]
        rw [← hnd, parseNat_natDigits k.toNat rest hrest]
        show some (JValue.num ((k.toNat : Nat) : Int), rest) = some (JValue.num k, rest)
        have : ((k.toNat : Nat) : Int) = k := Int.toNat_of_nonneg (by omega)
        rw [this]

/-! ## Character classification of serialized values -/

/-- Characters of a serialized good string body: the character itself (good)
or the two escape characters. -/
theorem serStrBody_chars_good (s : List Char) (h : ∀ c ∈ s, goodChar c = true) :
    ∀ c ∈ serStrBody s, c = '"' ∨ c = '\\' ∨ goodChar c = true := by
  induction s with
  | nil => intro c hc; simp [serStrBody] at hc
  | cons a s ih =>
      intro c hc
      have ha := h a (List.mem_cons_self _ _)
      have hs := ih (fun d hd => h d (List.mem_cons_of_mem _ hd))
      rw [show serStrBody (a :: s) = serStrChar a ++ serStrBody s from rfl] at hc
      rcases List.mem_append.mp hc with hc | hc
      · rw [serStrChar_eq_of_good a ha] at hc
        split_ifs at hc with g1 g2
        · simp at hc
          rcases hc with rfl | rfl
          · exact Or.inr (Or.inl rfl)
          · exact Or.inl rfl
        · simp at hc
          subst hc
          exact Or.inr (Or.inl rfl)
        · simp at hc; subst hc; exact Or.inr (Or.inr ha)
      · exact hs c hc

/-- A serialized good string contains no brace and no backtick. -/
theorem serStr_chars_good (s : String) (h : goodStr s = true) :
    ∀ c ∈ serStr s, c ≠ '{' ∧ c ≠ '}' ∧ c ≠ '`' := by
  intro c hc
  have hgood : ∀ d ∈ s.data, goodChar d = true := by
    intro d hd
    exact List.all_eq_true.mp h d hd
  rw [show serStr s = '"' :: serStrBody s.data ++ ['"'] from rfl] at hc
  rcases List.mem_cons.mp hc with rfl | hc
  · exact ⟨by decide, by decide, by decide⟩
  · rcases List.mem_append.mp hc with hc | hc
    · rcases serStrBody_chars_good s.data hgood c hc with rfl | rfl | hg
      · exact ⟨by decide, by decide, by decide⟩
      · exact ⟨by decide, by decide, by decide⟩
      · obtain ⟨_, _, h1, h2, h3⟩ := goodChar_spec c hg
        exact ⟨h1, h2, h3⟩
    · simp at hc; subst hc; exact ⟨by decide, by decide, by decide⟩

/-- A serialized integer contains no brace and no backtick. -/
theorem serInt_chars_good (k : Int) :
    ∀ c ∈ serInt k, c ≠ '{' ∧ c ≠ '}' ∧ c ≠ '`' := by
  intro c hc
  rcases serInt_chars k c hc with rfl | hd
  · exact ⟨by decide, by decide, by decide⟩
  · obtain ⟨_, _, _, _, _, _, h1, _, _, h2, h3, _⟩ := isDigit_facts c hd
    exact ⟨h1, h2, h3⟩

/-! ## Brace-scan step lemmas -/

/-- Scanning past a non-brace character. -/
theorem scanLen_cons_other (c : Char) (cs : List Char) (d : Int)
    (h1 : c ≠ '{') (h2 : c ≠ '}') :
    scanLen (c :: cs) d = (scanLen cs d).map (fun k => k + 1) := by
  show (let d2 := if c = '{' then d + 1 else if c = '}' then d - 1 else d
    if c = '}' ∧ d2 = 0 then some 1
    else (scanLen cs d2).map (fun k => k + 1)) = _
  simp only [if_neg h1, if_neg h2]
  rw [if_neg (fun hh => h2 hh.1)]

/-- Scanning past an opening brace increments the depth. -/
theorem scanLen_lbrace (cs : List Char) (d : Int) :
    scanLen ('{' :: cs) d = (scanLen cs (d + 1)).map (fun k => k + 1) := by
  show (let d2 := if '{' = '{' then d + 1 else if '{' = '}' then d - 1 else d
    if '{' = '}' ∧ d2 = 0 then some 1
    else (scanLen cs d2).map (fun k => k + 1)) = _
  simp

/-- A closing brace at depth 1 ends the scan. -/
theorem scanLen_rbrace_one (cs : List Char) : scanLen ('}' :: cs) 1 = some 1 := by
  rfl

/-- A closing brace at any other depth decrements and continues. -/
theorem scanLen_rbrace_ne (cs : List Char) (d : Int) (h : d ≠ 1) :
    scanLen ('}' :: cs) d = (scanLen cs (d - 1)).map (fun k => k + 1) := by
  show (if '}' = '}' ∧ d - 1 = 0 then some 1
    else (scanLen cs (d - 1)).map (fun k => k + 1)) = _
  rw [if_neg (fun hh => h (by omega))]

/-- Scanning passes through a brace-free segment. -/
theorem scanLen_no_brace (cs : List Char)
    (h : ∀ c ∈ cs, c ≠ '{' ∧ c ≠ '}') (rest : List Char) (d : Int) :
    scanLen (cs ++ rest) d = (scanLen rest d).map (fun k => k + cs.length) := by
  induction cs with
  | nil => cases hsc : scanLen rest d <;> simp [hsc]
  | cons c cs ih =>
      have hc := h c (List.mem_cons_self _ _)
      rw [List.cons_append, scanLen_cons_other c _ d hc.1 hc.2,
        ih (fun x hx => h x (List.mem_cons_of_mem _ hx))]
      cases hsc : scanLen rest d <;> simp [hsc]
      omega

/-! ## Size positivity -/

/-- Values always have positive size. -/
theorem jsize_pos (v : JValue) : 1 ≤ jsize v := by
  cases v <;> simp [jsize]

/-! ## The brace scan passes exactly through a serialized value -/

/-- At positive depth, scanning a serialized good value (elements, members)
passes entirely through it: inner objects open and close without the depth
ever returning to zero. -/
theorem scan_through_all : ∀ n : Nat,
    (∀ v : JValue, jsize v ≤ n → goodV v = true →
      ∀ (rest : List Char) (d : Int), 1 ≤ d →
        scanLen (serV v ++ rest) d =
          (scanLen rest d).map (fun k => k + (serV v).length)) ∧
    (∀ xs : List JValue, esize xs ≤ n → goodElems xs = true →
      ∀ (rest : List Char) (d : Int), 1 ≤ d →
        scanLen (serElems xs ++ rest) d =
          (scanLen rest d).map (fun k => k + (serElems xs).length)) ∧
    (∀ kvs : List (String × JValue), msize kvs ≤ n → goodMembers kvs = true →
      ∀ (rest : List Char) (d : Int), 1 ≤ d →
        scanLen (serMembers kvs ++ rest) d =
          (scanLen rest d).map (fun k => k + (serMembers kvs).length)) := by
  intro n
  induction n with
  | zero =>
      refine ⟨?_, ?_, ?_⟩
      · intro v hv
        exact absurd hv (by have := jsize_pos v; omega)
      · intro xs hxs hg rest d hd
        cases xs with
        | nil => cases hsc : scanLen rest d <;> simp [serElems, hsc]
        | cons x tl =>
            exfalso
            rw [show esize (x :: tl) = 1 + jsize x + esize tl from rfl] at hxs
            omega
      · intro kvs hkv hg rest d hd
        cases kvs with
        | nil => cases hsc : scanLen rest d <;> simp [serMembers, hsc]
        | cons kv tl =>
            exfalso
            obtain ⟨k, v⟩ := kv
            rw [show msize ((k, v) :: tl) = 1 + jsize v + msize tl from rfl] at hkv
            omega
  | succ n ih =>
      obtain ⟨ihv, ihe, ihm⟩ := ih
      refine ⟨?_, ?_, ?_⟩
      · intro v hv hg rest d hd
        cases v with
        | null => exact scanLen_no_brace _ (by decide) rest d
        | bool b => cases b <;> exact scanLen_no_brace _ (by decide) rest d
        | num k =>
            refine scanLen_no_brace _ ?_ rest d
            intro c hc
            have := serInt_chars_good k c hc
            exact ⟨this.1, this.2.1⟩
        | str s =>
            refine scanLen_no_brace _ ?_ rest d
            intro c hc
            have := serStr_chars_good s hg c hc
            exact ⟨this.1, this.2.1⟩
        | arr xs =>
            have hgx : goodElems xs = true := hg
            have hex : esize xs ≤ n := by
              rw [show jsize (.arr xs) = 1 + esize xs from rfl] at hv
              omega
            rw [show serV (.arr xs) ++ rest =
              '[' :: (serElems xs ++ (']' :: rest)) by simp [serV]]
            rw [scanLen_cons_other '[' _ d (by decide) (by decide)]
            rw [ihe xs hex hgx (']' :: rest) d hd]
            rw [scanLen_cons_other ']' _ d (by decide) (by decide)]
            cases hsc : scanLen rest d <;>
              simp [hsc, show serV (.arr xs) = '[' :: (serElems xs ++ [']']) from rfl]
            omega
        | obj kvs =>
            have hgm : goodMembers kvs = true := by
              rw [show goodV (.obj kvs) =
                (goodMembers kvs && distinctKeys (kvs.map Prod.fst)) from rfl] at hg
              simp only [Bool.and_eq_true] at hg
              exact hg.1
            have hmk : msize kvs ≤ n := by
              rw [show jsize (.obj kvs) = 1 + msize kvs from rfl] at hv
              omega
            rw [show serV (.obj kvs) ++ rest =
              '{' :: (serMembers kvs ++ ('}' :: rest)) by simp [serV]]
            rw [scanLen_lbrace]
            rw [ihm kvs hmk hgm ('}' :: rest) (d + 1) (by omega)]
            rw [scanLen_rbrace_ne rest (d + 1) (by omega)]
            rw [show d + 1 - 1 = d by omega]
            cases hsc : scanLen rest d <;>
              simp [hsc, show serV (.obj kvs) = '{' :: (serMembers kvs ++ ['}']) from rfl]
            omega
      · intro xs hxs hg rest d hd
        cases xs with
        | nil => cases hsc : scanLen rest d <;> simp [serElems, hsc]
        | cons x tl =>
            have hsz : 1 + jsize x + esize tl ≤ n + 1 := by
              rw [show esize (x :: tl) = 1 + jsize x + esize tl from rfl] at hxs
              exact hxs
            have hgx : goodV x = true := by
              rw [show goodElems (x :: tl) = (goodV x && goodElems tl) from rfl] at hg
              simp only [Bool.and_eq_true] at hg
              exact hg.1
            have hgt : goodElems tl = true := by
              rw [show goodElems (x :: tl) = (goodV x && goodElems tl) from rfl] at hg
              simp only [Bool.and_eq_true] at hg
              exact hg.2
            cases tl with
            | nil =>
                show scanLen (serV x ++ rest) d = _
                rw [ihv x (by omega) hgx rest d hd]
                rfl
            | cons y tl2 =>
                rw [show serElems (x :: y :: tl2) ++ rest =
                  serV x ++ (',' :: ' ' :: (serElems (y :: tl2) ++ rest)) by
                    simp [serElems]]
                rw [ihv x (by omega) hgx _ d hd]
                rw [scanLen_cons_other ',' _ d (by decide) (by decide)]
                rw [scanLen_cons_other ' ' _ d (by decide) (by decide)]
                rw [ihe (y :: tl2) (by
                  rw [show esize (y :: tl2) = 1 + jsize y + esize tl2 from rfl] at hsz ⊢
                  omega) hgt rest d hd]
                cases hsc : scanLen rest d <;>
                  simp [hsc, show serElems (x :: y :: tl2) =
                    serV x ++ ',' :: ' ' :: serElems (y :: tl2) from rfl]
                omega
      · intro kvs hkv hg rest d hd
        cases kvs with
        | nil => cases hsc : scanLen rest d <;> simp [serMembers, hsc]
        | cons kv tl =>
            obtain ⟨k, v⟩ := kv
            have hsz : 1 + jsize v + msize tl ≤ n + 1 := by
              rw [show msize ((k, v) :: tl) = 1 + jsize v + msize tl from rfl] at hkv
              exact hkv
            have hgk : goodStr k = true := by
              rw [show goodMembers ((k, v) :: tl) =
                (goodStr k && goodV v && goodMembers tl) from rfl] at hg
              simp only [Bool.and_eq_true] at hg
              exact hg.1.1
            have hgv : goodV v = true := by
              rw [show goodMembers ((k, v) :: tl) =
                (goodStr k && goodV v && goodMembers tl) from rfl] at hg
              simp only [Bool.and_eq_true] at hg
              exact hg.1.2
            have hgt : goodMembers tl = true := by
              rw [show goodMembers ((k, v) :: tl) =
                (goodStr k && goodV v && goodMembers tl) from rfl] at hg
              simp only [Bool.and_eq_true] at hg
              exact hg.2
            have hkchars : ∀ c ∈ serStr k, c ≠ '{' ∧ c ≠ '}' := by
              intro c hc
              have := serStr_chars_good k hgk c hc
              exact ⟨this.1, this.2.1⟩
            cases tl with
            | nil =>
                rw [show serMembers [(k, v)] ++ rest =
                  serStr k ++ (':' :: ' ' :: (serV v ++ rest)) by simp [serMembers]]
                rw [scanLen_no_brace (serStr k) hkchars _ d]
                rw [scanLen_cons_other ':' _ d (by decide) (by decide)]
                rw [scanLen_cons_other ' ' _ d (by decide) (by decide)]
                rw [ihv v (by omega) hgv rest d hd]
                cases hsc : scanLen rest d <;>
                  simp [hsc, show serMembers [(k, v)] =
                    serStr k ++ ':' :: ' ' :: serV v from rfl]
                omega
            | cons kv2 tl2 =>
                rw [show serMembers ((k, v) :: kv2 :: tl2) ++ rest =
                  serStr k ++ (':' :: ' ' :: (serV v ++
                    (',' :: ' ' :: (serMembers (kv2 :: tl2) ++ rest)))) by
                      simp [serMembers]]
                rw [scanLen_no_brace (serStr k) hkchars _ d]
                rw [scanLen_cons_other ':' _ d (by decide) (by decide)]
                rw [scanLen_cons_other ' ' _ d (by decide) (by decide)]
                rw [ihv v (by omega) hgv _ d hd]
                rw [scanLen_cons_other ',' _ d (by decide) (by decide)]
                rw [scanLen_cons_other ' ' _ d (by decide) (by decide)]
                rw [ihm (kv2 :: tl2) (by
                  obtain ⟨k2, v2⟩ := kv2
                  rw [show msize ((k2, v2) :: tl2) = 1 + jsize v2 + msize tl2 from rfl] at hsz ⊢
                  omega) hgt rest d hd]
                cases hsc : scanLen rest d <;>
                  simp [hsc, show serMembers ((k, v) :: kv2 :: tl2) =
                    serStr k ++ ':' :: ' ' :: serV v ++
                      ',' :: ' ' :: serMembers (kv2 :: tl2) from rfl]
                omega

/-! ## No backtick in serialized good values (no spurious code fence) -/

/-- The serialization of a good value contains no backtick, so fence
stripping leaves it unchanged. -/
theorem serV_no_tick_all : ∀ n : Nat,
    (∀ v : JValue, jsize v ≤ n → goodV v = true → '`' ∉ serV v) ∧
    (∀ xs : List JValue, esize xs ≤ n → goodElems xs = true → '`' ∉ serElems xs) ∧
    (∀ kvs : List (String × JValue), msize kvs ≤ n → goodMembers kvs = true →
      '`' ∉ serMembers kvs) := by
  intro n
  induction n with
  | zero =>
      refine ⟨?_, ?_, ?_⟩
      · intro v hv
        exact absurd hv (by have := jsize_pos v; omega)
      · intro xs hxs hg
        cases xs with
        | nil => simp [serElems]
        | cons x tl =>
            exfalso
            rw [show esize (x :: tl) = 1 + jsize x + esize tl from rfl] at hxs
            omega
      · intro kvs hkv hg
        cases kvs with
        | nil => simp [serMembers]
        | cons kv tl =>
            exfalso
            obtain ⟨k, v⟩ := kv
            rw [show msize ((k, v) :: tl) = 1 + jsize v + msize tl from rfl] at hkv
            omega
  | succ n ih =>
      obtain ⟨ihv, ihe, ihm⟩ := ih
      refine ⟨?_, ?_, ?_⟩
      · intro v hv hg hmem
        cases v with
        | null => exact absurd hmem (by decide)
        | bool b => cases b <;> exact absurd hmem (by decide)
        | num k => exact (serInt_chars_good k '`' hmem).2.2 rfl
        | str s => exact (serStr_chars_good s hg '`' hmem).2.2 rfl
        | arr xs =>
            have hgx : goodElems xs = true := hg
            have hex : esize xs ≤ n := by
              rw [show jsize (.arr xs) = 1 + esize xs from rfl] at hv
              omega
            rw [show serV (.arr xs) = '[' :: (serElems xs ++ [']']) from rfl] at hmem
            rcases List.mem_cons.mp hmem with h1 | h1
            · exact absurd h1 (by decide)
            · rcases List.mem_append.mp h1 with h2 | h2
              · exact ihe xs hex hgx h2
              · simp at h2
        | obj kvs =>
            have hgm : goodMembers kvs = true := by
              rw [show goodV (.obj kvs) =
                (goodMembers kvs && distinctKeys (kvs.map Prod.fst)) from rfl] at hg
              simp only [Bool.and_eq_true] at hg
              exact hg.1
            have hmk : msize kvs ≤ n := by
              rw [show jsize (.obj kvs) = 1 + msize kvs from rfl] at hv
              omega
            rw [show serV (.obj kvs) = '{' :: (serMembers kvs ++ ['}']) from rfl] at hmem
            rcases List.mem_cons.mp hmem with h1 | h1
            · exact absurd h1 (by decide)
            · rcases List.mem_append.mp h1 with h2 | h2
              · exact ihm kvs hmk hgm h2
              · simp at h2
      · intro xs hxs hg hmem
        cases xs with
        | nil => simp [serElems] at hmem
        | cons x tl =>
            have hsz : 1 + jsize x + esize tl ≤ n + 1 := by
              rw [show esize (x :: tl) = 1 + jsize x + esize tl from rfl] at hxs
              exact hxs
            have hgx : goodV x = true := by
              rw [show goodElems (x :: tl) = (goodV x && goodElems tl) from rfl] at hg
              simp only [Bool.and_eq_true] at hg
              exact hg.1
            have hgt : goodElems tl = true := by
              rw [show goodElems (x :: tl) = (goodV x && goodElems tl) from rfl] at hg
              simp only [Bool.and_eq_true] at hg
              exact hg.2
            cases tl with
            | nil => exact ihv x (by omega) hgx hmem
            | cons y tl2 =>
                rw [show serElems (x :: y :: tl2) =
                  serV x ++ ',' :: ' ' :: serElems (y :: tl2) from rfl] at hmem
                rcases List.mem_append.mp hmem with h1 | h1
                · exact ihv x (by omega) hgx h1
                · rcases List.mem_cons.mp h1 with h2 | h2
                  · exact absurd h2 (by decide)
                  · rcases List.mem_cons.mp h2 with h3 | h3
                    · exact absurd h3 (by decide)
                    · refine ihe (y :: tl2) ?_ hgt h3
                      rw [show esize (y :: tl2) = 1 + jsize y + esize tl2 from rfl] at hsz ⊢
                      omega
      · intro kvs hkv hg hmem
        cases kvs with
        | nil => simp [serMembers] at hmem
        | cons kv tl =>
            obtain ⟨k, v⟩ := kv
            have hsz : 1 + jsize v + msize tl ≤ n + 1 := by
              rw [show msize ((k, v) :: tl) = 1 + jsize v + msize tl from rfl] at hkv
              exact hkv
            have hgk : goodStr k = true := by
              rw [show goodMembers ((k, v) :: tl) =
                (goodStr k && goodV v && goodMembers tl) from rfl] at hg
              simp only [Bool.and_eq_true] at hg
              exact hg.1.1
            have hgv : goodV v = true := by
              rw [show goodMembers ((k, v) :: tl) =
                (goodStr k && goodV v && goodMembers tl) from rfl] at hg
              simp only [Bool.and_eq_true] at hg
              exact hg.1.2
            have hgt : goodMembers tl = true := by
              rw [show goodMembers ((k, v) :: tl) =
                (goodStr k && goodV v && goodMembers tl) from rfl] at hg
              simp only [Bool.and_eq_true] at hg
              exact hg.2
            cases tl with
            | nil =>
                rw [show serMembers [(k, v)] =
                  serStr k ++ ':' :: ' ' :: serV v from rfl] at hmem
                rcases List.mem_append.mp hmem with h1 | h1
                · exact (serStr_chars_good k hgk '`' h1).2.2 rfl
                · rcases List.mem_cons.mp h1 with h2 | h2
                  · exact absurd h2 (by decide)
                  · rcases List.mem_cons.mp h2 with h3 | h3
                    · exact absurd h3 (by decide)
                    · exact ihv v (by omega) hgv h3
            | cons kv2 tl2 =>
                rw [show serMembers ((k, v) :: kv2 :: tl2) =
                  serStr k ++ ':' :: ' ' :: serV v ++
                    ',' :: ' ' :: serMembers (kv2 :: tl2) from rfl] at hmem
                rcases List.mem_append.mp hmem with h1 | h1
                · rcases List.mem_append.mp h1 with h2 | h2
                  · exact (serStr_chars_good k hgk '`' h2).2.2 rfl
                  · rcases List.mem_cons.mp h2 with h3 | h3
                    · exact absurd h3 (by decide)
                    · rcases List.mem_cons.mp h3 with h4 | h4
                      · exact absurd h4 (by decide)
                      · exact ihv v (by omega) hgv h4
                · rcases List.mem_cons.mp h1 with h2 | h2
                  · exact absurd h2 (by decide)
                  · rcases List.mem_cons.mp h2 with h3 | h3
                    · exact absurd h3 (by decide)
                    · refine ihm (kv2 :: tl2) ?_ hgt h3
                      obtain ⟨k2, v2⟩ := kv2
                      rw [show msize ((k2, v2) :: tl2) =
                        1 + jsize v2 + msize tl2 from rfl] at hsz ⊢
                      omega

/-! ## Whitespace bridges for the parser -/

/-- `parseValue` ignores a leading whitespace character. -/
theorem parseValue_ws (n : Nat) (c : Char) (cs : List Char)
    (h : jsonWs c = true) :
    parseValue n (c :: cs) = parseValue n cs := by
  cases n with
  | zero => rfl
  | succ n => rw [parseValue.eq_2, parseValue.eq_2, skipWs_cons_true c cs h]

/-- `parseElems` ignores a leading whitespace character. -/
theorem parseElems_ws (n : Nat) (c : Char) (cs : List Char)
    (h : jsonWs c = true) :
    parseElems n (c :: cs) = parseElems n cs := by
  cases n with
  | zero => rfl
  | succ n => rw [parseElems.eq_2, parseElems.eq_2, parseValue_ws n c cs h]

/-- `parseMembers` ignores a leading whitespace character. -/
theorem parseMembers_ws (n : Nat) (c : Char) (cs : List Char)
    (h : jsonWs c = true) :
    parseMembers n (c :: cs) = parseMembers n cs := by
  cases n with
  | zero => rfl
  | succ n => rw [parseMembers.eq_2, parseMembers.eq_2, skipWs_cons_true c cs h]

/-- Every serialized value starts with a character that is not whitespace
and not a closing bracket or brace. -/
theorem serV_head (v : JValue) :
    ∃ c cs, serV v = c :: cs ∧ jsonWs c = false ∧ c ≠ ']' ∧ c ≠ '}' := by
  cases v with
  | num k =>
      show ∃ c cs, serInt k = c :: cs ∧ _
      by_cases hk : k < 0
      · refine ⟨'-', natDigits k.natAbs, ?_, ?_, ?_, ?_⟩
        · unfold serInt
          rw [if_pos hk]
        all_goals decide
      · cases hnd : natDigits k.toNat with
        | nil => exact absurd hnd (natDigits_ne_nil _)
        | cons c cs =>
            have hcd : c.isDigit = true :=
              natDigits_all_digit k.toNat c (by rw [hnd]; exact List.mem_cons_self _ _)
            obtain ⟨hws, _, _, _, _, _, _, _, hrb, hcb, _, _⟩ := isDigit_facts c hcd
            refine ⟨c, cs, ?_, hws, hrb, hcb⟩
            unfold serInt
            rw [if_neg hk, hnd]
  | bool b =>
      rcases b with _ | _
      · refine ⟨'f', _, rfl, ?_, ?_, ?_⟩ <;> decide
      · refine ⟨'t', _, rfl, ?_, ?_, ?_⟩ <;> decide
  | null => refine ⟨'n', _, rfl, ?_, ?_, ?_⟩ <;> decide
  | str s => refine ⟨'"', _, rfl, ?_, ?_, ?_⟩ <;> decide
  | arr xs => refine ⟨'[', _, rfl, ?_, ?_, ?_⟩ <;> decide
  | obj kvs => refine ⟨'{', _, rfl, ?_, ?_, ?_⟩ <;> decide

/-! ## Rebuilding a duplicate-free dict -/

/-- Inserting a fresh key appends. -/
theorem insertKV_append (acc : List (String × JValue)) (k : String) (v : JValue)
    (h : k ∉ acc.map Prod.fst) : insertKV acc k v = acc ++ [(k, v)] := by
  induction acc with
  | nil => rfl
  | cons kv0 tl ih =>
      obtain ⟨k0, v0⟩ := kv0
      have hk0 : k0 ≠ k := by
        intro hh
        exact h (by simp [hh])
      rw [show insertKV ((k0, v0) :: tl) k v =
        if k0 = k then (k0, v) :: tl else (k0, v0) :: insertKV tl k v from rfl]
      rw [if_neg hk0, ih (by intro hh; exact h (by simp [hh]))]
      simp

/-- Folding fresh inserts over distinct keys appends the whole list. -/
theorem foldl_insertKV (l : List (String × JValue)) :
    ∀ acc, distinctKeys (l.map Prod.fst) = true →
      (∀ k ∈ l.map Prod.fst, k ∉ acc.map Prod.fst) →
      l.foldl (fun a kv => insertKV a kv.1 kv.2) acc = acc ++ l := by
  induction l with
  | nil => intro acc _ _; simp
  | cons kv tl ih =>
      obtain ⟨k, v⟩ := kv
      intro acc hdk hni
      have hdk2 : distinctKeys (tl.map Prod.fst) = true := by
        rw [show distinctKeys (((k, v) :: tl).map Prod.fst) =
          (!(tl.map Prod.fst).contains k && distinctKeys (tl.map Prod.fst)) from rfl] at hdk
        simp only [Bool.and_eq_true] at hdk
        exact hdk.2
      have hkfresh : k ∉ tl.map Prod.fst := by
        intro hm
        have hc : (tl.map Prod.fst).contains k = true := List.elem_eq_true_of_mem hm
        rw [show distinctKeys (((k, v) :: tl).map Prod.fst) =
          (!(tl.map Prod.fst).contains k && distinctKeys (tl.map Prod.fst)) from rfl,
          hc] at hdk
        simp at hdk
      show tl.foldl (fun a kv => insertKV a kv.1 kv.2) (insertKV acc k v) = _
      rw [insertKV_append acc k v (hni k (by simp))]
      rw [ih (acc ++ [(k, v)]) hdk2 ?_]
      · simp
      · intro k2 hk2
        simp only [List.map_append, List.mem_append] at *
        rintro (hin | hin)
        · exact hni k2 (by simp [hk2]) hin
        · simp at hin
          subst hin
          exact hkfresh hk2

/-- `objFromPairs` is the identity on duplicate-free key lists. -/
theorem objFromPairs_self (kvs : List (String × JValue))
    (h : distinctKeys (kvs.map Prod.fst) = true) :
    objFromPairs kvs = kvs := by
  unfold objFromPairs
  rw [foldl_insertKV kvs [] h (by simp)]
  simp

/-! ## The size bound is below the serialized length -/

/-- The parsing fuel bound of a value is at most its serialized length. -/
theorem jsize_le_serV_all : ∀ n : Nat,
    (∀ v : JValue, jsize v ≤ n → jsize v ≤ (serV v).length) ∧
    (∀ xs : List JValue, esize xs ≤ n → esize xs ≤ (serElems xs).length + 1) ∧
    (∀ kvs : List (String × JValue), msize kvs ≤ n →
      msize kvs ≤ (serMembers kvs).length + 1) := by
  intro n
  induction n with
  | zero =>
      refine ⟨?_, ?_, ?_⟩
      · intro v hv
        exact absurd hv (by have := jsize_pos v; omega)
      · intro xs hxs
        cases xs with
        | nil => simp [esize, serElems]
        | cons x tl =>
            exfalso
            rw [show esize (x :: tl) = 1 + jsize x + esize tl from rfl] at hxs
            omega
      · intro kvs hkv
        cases kvs with
        | nil => simp [msize, serMembers]
        | cons kv tl =>
            exfalso
            obtain ⟨k, v⟩ := kv
            rw [show msize ((k, v) :: tl) = 1 + jsize v + msize tl from rfl] at hkv
            omega
  | succ n ih =>
      obtain ⟨ihv, ihe, ihm⟩ := ih
      refine ⟨?_, ?_, ?_⟩
      · intro v hv
        cases v with
        | null => decide
        | bool b => cases b <;> decide
        | num k =>
            have := List.length_pos.mpr (serInt_ne_nil k)
            rw [show jsize (.num k) = 1 from rfl,
              show serV (.num k) = serInt k from rfl]
            omega
        | str s =>
            rw [show jsize (.str s) = 1 from rfl,
              show serV (.str s) = '"' :: serStrBody s.data ++ ['"'] from rfl]
            simp
        | arr xs =>
            have hex : esize xs ≤ n := by
              rw [show jsize (.arr xs) = 1 + esize xs from rfl] at hv
              omega
            have := ihe xs hex
            rw [show jsize (.arr xs) = 1 + esize xs from rfl,
              show serV (.arr xs) = '[' :: (serElems xs ++ [']']) from rfl]
            simp only [List.length_cons, List.length_append, List.length_singleton]
            omega
        | obj kvs =>
            have hmk : msize kvs ≤ n := by
              rw [show jsize (.obj kvs) = 1 + msize kvs from rfl] at hv
              omega
            have := ihm kvs hmk
            rw [show jsize (.obj kvs) = 1 + msize kvs from rfl,
              show serV (.obj kvs) = '{' :: (serMembers kvs ++ ['}']) from rfl]
            simp only [List.length_cons, List.length_append, List.length_singleton]
            omega
      · intro xs hxs
        cases xs with
        | nil => simp [esize, serElems]
        | cons x tl =>
            have hsz : 1 + jsize x + esize tl ≤ n + 1 := by
              rw [show esize (x :: tl) = 1 + jsize x + esize tl from rfl] at hxs
              exact hxs
            have hx := ihv x (by omega)
            cases tl with
            | nil =>
                rw [show esize [x] = 1 + jsize x + 0 from rfl,
                  show serElems [x] = serV x from rfl]
                omega
            | cons y tl2 =>
                have ht := ihe (y :: tl2) (by
                  rw [show esize (y :: tl2) = 1 + jsize y + esize tl2 from rfl] at hsz ⊢
                  omega)
                rw [show esize (x :: y :: tl2) = 1 + jsize x + esize (y :: tl2) from rfl,
                  show serElems (x :: y :: tl2) =
                    serV x ++ ',' :: ' ' :: serElems (y :: tl2) from rfl]
                simp only [List.length_append, List.length_cons]
                omega
      · intro kvs hkv
        cases kvs with
        | nil => simp [msize, serMembers]
        | cons kv tl =>
            obtain ⟨k, v⟩ := kv
            have hsz : 1 + jsize v + msize tl ≤ n + 1 := by
              rw [show msize ((k, v) :: tl) = 1 + jsize v + msize tl from rfl] at hkv
              exact hkv
            have hx := ihv v (by omega)
            cases tl with
            | nil =>
                rw [show msize [(k, v)] = 1 + jsize v + 0 from rfl,
                  show serMembers [(k, v)] = serStr k ++ ':' :: ' ' :: serV v from rfl]
                simp only [List.length_append, List.length_cons]
                omega
            | cons kv2 tl2 =>
                have ht := ihm (kv2 :: tl2) (by
                  obtain ⟨k2, v2⟩ := kv2
                  rw [show msize ((k2, v2) :: tl2) =
                    1 + jsize v2 + msize tl2 from rfl] at hsz ⊢
                  omega)
                rw [show msize ((k, v) :: kv2 :: tl2) =
                    1 + jsize v + msize (kv2 :: tl2) from rfl,
                  show serMembers ((k, v) :: kv2 :: tl2) =
                    serStr k ++ ':' :: ' ' :: serV v ++
                      ',' :: ' ' :: serMembers (kv2 :: tl2) from rfl]
                simp only [List.length_append, List.length_cons]
                omega

/-! ## Branch forms of the fueled parser (definitional) -/

/-- `parseValue` at a quote: parse a string body. -/
theorem parseValue_quote (n : Nat) (tl : List Char) :
    parseValue (n + 1) ('"' :: tl) =
      (match parseStringBody tl with
        | some (s, rest2) => some (JValue.str ⟨s⟩, rest2)
        | none => none) := rfl

/-- `parseValue` at an opening bracket: empty array or element list. -/
theorem parseValue_lbracket (n : Nat) (tl : List Char) :
    parseValue (n + 1) ('[' :: tl) =
      (match skipWs tl with
        | ']' :: rest2 => some (JValue.arr [], rest2)
        | cs2 =>
          match parseElems n cs2 with
          | some (vs, rest2) => some (JValue.arr vs, rest2)
          | none => none) := rfl

/-- `parseValue` at an opening brace: empty object or member list. -/
theorem parseValue_lbrace (n : Nat) (tl : List Char) :
    parseValue (n + 1) ('{' :: tl) =
      (match skipWs tl with
        | '}' :: rest2 => some (JValue.obj [], rest2)
        | cs2 =>
          match parseMembers n cs2 with
          | some (ps, rest2) => some (JValue.obj (objFromPairs ps), rest2)
          | none => none) := rfl

/-- `parseMembers` at a quoted key. -/
theorem parseMembers_quote (n : Nat) (tl : List Char) :
    parseMembers (n + 1) ('"' :: tl) =
      (match parseStringBody tl with
        | none => none
        | some (k, rest2) =>
          match skipWs rest2 with
          | ':' :: rest3 =>
            match parseValue n rest3 with
            | none => none
            | some (v, rest4) =>
              match skipWs rest4 with
              | ',' :: rest5 =>
                  match parseMembers n rest5 with
                  | some (ps, rest6) => some ((⟨k⟩, v) :: ps, rest6)
                  | none => none
              | '}' :: rest5 => some ([(⟨k⟩, v)], rest5)
              | _ => none
          | _ => none) := rfl

/-! ## The parser inverts the serializer on good values -/

/-- Round trip of the fueled parser against the serializer, jointly for
values, non-empty element lists and non-empty member lists. -/
theorem parse_ser_all : ∀ n : Nat,
    (∀ v : JValue, jsize v ≤ n → goodV v = true →
      ∀ rest : List Char, noDigitHead rest = true →
        parseValue n (serV v ++ rest) = some (v, rest)) ∧
    (∀ (x : JValue) (xs : List JValue), esize (x :: xs) ≤ n →
      goodElems (x :: xs) = true → ∀ rest : List Char,
        parseElems n (serElems (x :: xs) ++ ']' :: rest) = some (x :: xs, rest)) ∧
    (∀ (kv : String × JValue) (kvs : List (String × JValue)),
      msize (kv :: kvs) ≤ n → goodMembers (kv :: kvs) = true →
      ∀ rest : List Char,
        parseMembers n (serMembers (kv :: kvs) ++ '}' :: rest) =
          some (kv :: kvs, rest)) := by
  intro n
  induction n with
  | zero =>
      refine ⟨?_, ?_, ?_⟩
      · intro v hv
        exact absurd hv (by have := jsize_pos v; omega)
      · intro x xs hs
        exfalso
        rw [show esize (x :: xs) = 1 + jsize x + esize xs from rfl] at hs
        omega
      · intro kv kvs hs
        exfalso
        obtain ⟨k, v⟩ := kv
        rw [show msize ((k, v) :: kvs) = 1 + jsize v + msize kvs from rfl] at hs
        omega
  | succ n ih =>
      obtain ⟨ihv, ihe, ihm⟩ := ih
      refine ⟨?_, ?_, ?_⟩
      · intro v hv hg rest hrest
        cases v with
        | null => rfl
        | bool b => cases b <;> rfl
        | num k => exact parseValue_serInt n k rest hrest
        | str s =>
            have hall : ∀ c ∈ s.data, goodChar c = true := by
              intro c hc
              exact List.all_eq_true.mp hg c hc
            rw [show serV (.str s) ++ rest =
              '"' :: (serStrBody s.data ++ '"' :: rest) by simp [serV, serStr]]
            rw [parseValue_quote n _]
            rw [parseStringBody_serStrBody s.data hall rest]
        | arr xs =>
            cases xs with
            | nil => rfl
            | cons x tl =>
                have hgx : goodElems (x :: tl) = true := hg
                have hex : esize (x :: tl) ≤ n := by
                  rw [show jsize (.arr (x :: tl)) = 1 + esize (x :: tl) from rfl] at hv
                  omega
                obtain ⟨c, cs0, hser, hws, hbr, _⟩ := serV_head x
                have hEW : ∃ W, serElems (x :: tl) ++ ']' :: rest = c :: W := by
                  cases tl with
                  | nil => exact ⟨cs0 ++ ']' :: rest, by
                      rw [show serElems [x] = serV x from rfl, hser]; simp⟩
                  | cons y tl2 => exact ⟨cs0 ++ ',' :: ' ' :: serElems (y :: tl2) ++
                      ']' :: rest, by
                      rw [show serElems (x :: y :: tl2) =
                        serV x ++ ',' :: ' ' :: serElems (y :: tl2) from rfl, hser]
                      simp⟩
                obtain ⟨W, hW⟩ := hEW
                rw [show serV (.arr (x :: tl)) ++ rest =
                  '[' :: (serElems (x :: tl) ++ ']' :: rest) by simp [serV]]
                rw [parseValue_lbracket n _]
                rw [hW, skipWs_cons_false c W hws]
                have hdone : parseElems n (c :: W) = some (x :: tl, rest) := by
                  rw [← hW]
                  exact ihe x tl hex hgx rest
                split
                · next r heq =>
                    exfalso
                    injection heq with h1 h2
                    exact hbr h1
                · next cs2 hguard =>
                    rw [hdone]
        | obj kvs =>
            have hgm : goodMembers kvs = true := by
              rw [show goodV (.obj kvs) =
                (goodMembers kvs && distinctKeys (kvs.map Prod.fst)) from rfl] at hg
              simp only [Bool.and_eq_true] at hg
              exact hg.1
            have hdk : distinctKeys (kvs.map Prod.fst) = true := by
              rw [show goodV (.obj kvs) =
                (goodMembers kvs && distinctKeys (kvs.map Prod.fst)) from rfl] at hg
              simp only [Bool.and_eq_true] at hg
              exact hg.2
            cases kvs with
            | nil => rfl
            | cons kv tl =>
                obtain ⟨k, v⟩ := kv
                have hmk : msize ((k, v) :: tl) ≤ n := by
                  rw [show jsize (.obj ((k, v) :: tl)) =
                    1 + msize ((k, v) :: tl) from rfl] at hv
                  omega
                have hMW : ∃ W, serMembers ((k, v) :: tl) ++ '}' :: rest = '"' :: W := by
                  cases tl with
                  | nil => exact ⟨serStrBody k.data ++ ['"'] ++
                      ':' :: ' ' :: serV v ++ '}' :: rest, by
                      rw [show serMembers [(k, v)] =
                        serStr k ++ ':' :: ' ' :: serV v from rfl,
                        show serStr k = '"' :: serStrBody k.data ++ ['"'] from rfl]
                      simp⟩
                  | cons kv2 tl2 => exact ⟨serStrBody k.data ++ ['"'] ++
                      ':' :: ' ' :: serV v ++ ',' :: ' ' :: serMembers (kv2 :: tl2) ++
                      '}' :: rest, by
                      rw [show serMembers ((k, v) :: kv2 :: tl2) =
                        serStr k ++ ':' :: ' ' :: serV v ++
                          ',' :: ' ' :: serMembers (kv2 :: tl2) from rfl,
                        show serStr k = '"' :: serStrBody k.data ++ ['"'] from rfl]
                      simp⟩
                obtain ⟨W, hW⟩ := hMW
                rw [show serV (.obj ((k, v) :: tl)) ++ rest =
                  '{' :: (serMembers ((k, v) :: tl) ++ '}' :: rest) by simp [serV]]
                rw [parseValue_lbrace n _]
                rw [hW, skipWs_cons_false '"' W (by decide)]
                have hdone : parseMembers n ('"' :: W) = some ((k, v) :: tl, rest) := by
                  rw [← hW]
                  exact ihm (k, v) tl hmk hgm rest
                split
                · next r heq =>
                    exfalso
                    injection heq with h1 h2
                    exact absurd h1 (by decide)
                · next cs2 hguard =>
                    rw [hdone]
                    show some (JValue.obj (objFromPairs ((k, v) :: tl)), rest) =
                      some (JValue.obj ((k, v) :: tl), rest)
                    rw [objFromPairs_self _ hdk]
      · intro x xs hs hg rest
        have hgx : goodV x = true := by
          rw [show goodElems (x :: xs) = (goodV x && goodElems xs) from rfl] at hg
          simp only [Bool.and_eq_true] at hg
          exact hg.1
        have hgt : goodElems xs = true := by
          rw [show goodElems (x :: xs) = (goodV x && goodElems xs) from rfl] at hg
          simp only [Bool.and_eq_true] at hg
          exact hg.2
        have hsz : 1 + jsize x + esize xs ≤ n + 1 := by
          rw [show esize (x :: xs) = 1 + jsize x + esize xs from rfl] at hs
          exact hs
        rw [parseElems.eq_2]
        cases xs with
        | nil =>
            rw [show serElems [x] ++ ']' :: rest = serV x ++ ']' :: rest from rfl]
            rw [ihv x (by omega) hgx (']' :: rest) (by rfl)]
            rfl
        | cons y tl =>
            rw [show serElems (x :: y :: tl) ++ ']' :: rest =
              serV x ++ (',' :: ' ' :: (serElems (y :: tl) ++ ']' :: rest)) by
                simp [serElems]]
            rw [ihv x (by omega) hgx _ (by rfl)]
            show (match parseElems n (' ' :: (serElems (y :: tl) ++ ']' :: rest)) with
              | some (vs, rest3) => some (x :: vs, rest3)
              | none => none) = some (x :: y :: tl, rest)
            rw [parseElems_ws n ' ' _ (by rfl)]
            rw [ihe y tl (by
              rw [show esize (y :: tl) = 1 + jsize y + esize tl from rfl] at hsz ⊢
              omega) hgt rest]
      · intro kv kvs hs hg rest
        obtain ⟨k, v⟩ := kv
        have hgk : goodStr k = true := by
          rw [show goodMembers ((k, v) :: kvs) =
            (goodStr k && goodV v && goodMembers kvs) from rfl] at hg
          simp only [Bool.and_eq_true] at hg
          exact hg.1.1
        have hgv : goodV v = true := by
          rw [show goodMembers ((k, v) :: kvs) =
            (goodStr k && goodV v && goodMembers kvs) from rfl] at hg
          simp only [Bool.and_eq_true] at hg
          exact hg.1.2
        have hgt : goodMembers kvs = true := by
          rw [show goodMembers ((k, v) :: kvs) =
            (goodStr k && goodV v && goodMembers kvs) from rfl] at hg
          simp only [Bool.and_eq_true] at hg
          exact hg.2
        have hallk : ∀ c ∈ k.data, goodChar c = true := by
          intro c hc
          exact List.all_eq_true.mp hgk c hc
        have hsz : 1 + jsize v + msize kvs ≤ n + 1 := by
          rw [show msize ((k, v) :: kvs) = 1 + jsize v + msize kvs from rfl] at hs
          exact hs
        cases kvs with
        | nil =>
            rw [show serMembers [(k, v)] ++ '}' :: rest =
              '"' :: (serStrBody k.data ++ '"' ::
                (':' :: ' ' :: (serV v ++ '}' :: rest))) by
                  rw [show serMembers [(k, v)] =
                    serStr k ++ ':' :: ' ' :: serV v from rfl,
                    show serStr k = '"' :: serStrBody k.data ++ ['"'] from rfl]
                  simp]
            rw [parseMembers_quote n _]
            rw [parseStringBody_serStrBody k.data hallk _]
            show (match parseValue n (' ' :: (serV v ++ '}' :: rest)) with
              | none => none
              | some (v2, rest4) =>
                match skipWs rest4 with
                | ',' :: rest5 =>
                    match parseMembers n rest5 with
                    | some (ps, rest6) => some ((⟨k.data⟩, v2) :: ps, rest6)
                    | none => none
                | '}' :: rest5 => some ([(⟨k.data⟩, v2)], rest5)
                | _ => none) = some ([(k, v)], rest)
            rw [parseValue_ws n ' ' _ (by rfl)]
            rw [ihv v (by omega) hgv ('}' :: rest) (by rfl)]
            rfl
        | cons kv2 tl2 =>
            rw [show serMembers ((k, v) :: kv2 :: tl2) ++ '}' :: rest =
              '"' :: (serStrBody k.data ++ '"' ::
                (':' :: ' ' :: (serV v ++
                  (',' :: ' ' :: (serMembers (kv2 :: tl2) ++ '}' :: rest))))) by
                  rw [show serMembers ((k, v) :: kv2 :: tl2) =
                    serStr k ++ ':' :: ' ' :: serV v ++
                      ',' :: ' ' :: serMembers (kv2 :: tl2) from rfl,
                    show serStr k = '"' :: serStrBody k.data ++ ['"'] from rfl]
                  simp]
            rw [parseMembers_quote n _]
            rw [parseStringBody_serStrBody k.data hallk _]
            show (match parseValue n (' ' :: (serV v ++
                (',' :: ' ' :: (serMembers (kv2 :: tl2) ++ '}' :: rest)))) with
              | none => none
              | some (v2, rest4) =>
                match skipWs rest4 with
                | ',' :: rest5 =>
                    match parseMembers n rest5 with
                    | some (ps, rest6) => some ((⟨k.data⟩, v2) :: ps, rest6)
                    | none => none
                | '}' :: rest5 => some ([(⟨k.data⟩, v2)], rest5)
                | _ => none) = some ((k, v) :: kv2 :: tl2, rest)
            rw [parseValue_ws n ' ' _ (by rfl)]
            rw [ihv v (by omega) hgv _ (by rfl)]
            show (match parseMembers n (' ' :: (serMembers (kv2 :: tl2) ++
                '}' :: rest)) with
              | some (ps, rest6) => some ((⟨k.data⟩, v) :: ps, rest6)
              | none => none) = some ((k, v) :: kv2 :: tl2, rest)
            rw [parseMembers_ws n ' ' _ (by rfl)]
            rw [ihm kv2 tl2 (by
              obtain ⟨k2, v2⟩ := kv2
              rw [show msize ((k2, v2) :: tl2) =
                1 + jsize v2 + msize tl2 from rfl] at hsz ⊢
              omega) hgt rest]

/-! ## Decoder-level round trip -/

/-- `json.loads` inverts `json.dumps` on good objects. -/
theorem jsonParseFull_serV (kvs : List (String × JValue))
    (hg : goodV (.obj kvs) = true) :
    jsonParseFull (serV (.obj kvs)) = some (.obj kvs) := by
  unfold jsonParseFull
  have hsize : jsize (.obj kvs) ≤ (serV (.obj kvs)).length :=
    (jsize_le_serV_all (jsize (.obj kvs))).1 _ (le_refl _)
  have hp := (parse_ser_all ((serV (.obj kvs)).length + 1)).1 (.obj kvs)
    (by omega) hg [] rfl
  rw [List.append_nil] at hp
  rw [hp]
  rfl

/-- The serialization of a good object decodes back to it. -/
theorem decodeJudge_jdump (kvs : List (String × JValue))
    (hg : goodV (.obj kvs) = true) :
    decodeJudge (jdump (.obj kvs)) = mkOk kvs := by
  have hgm : goodMembers kvs = true := by
    rw [show goodV (.obj kvs) =
      (goodMembers kvs && distinctKeys (kvs.map Prod.fst)) from rfl] at hg
    simp only [Bool.and_eq_true] at hg
    exact hg.1
  have hg2 : goodV (.obj kvs) = true := by
    rw [show goodV (.obj kvs) =
      (goodMembers kvs && distinctKeys (kvs.map Prod.fst)) from rfl]
    simp only [Bool.and_eq_true]
    rw [show goodV (.obj kvs) =
      (goodMembers kvs && distinctKeys (kvs.map Prod.fst)) from rfl] at hg
    simpa using hg
  unfold decodeJudge
  have hnt : '`' ∉ (jdump (.obj kvs)).data :=
    (serV_no_tick_all (jsize (.obj kvs))).1 _ (le_refl _) hg
  have hsf : stripFence (jdump (.obj kvs)) = jdump (.obj kvs) := by
    unfold stripFence fenceInner
    rw [fenceInnerAux_no_tick _ _ hnt]
  rw [hsf]
  have hdata : (jdump (.obj kvs)).data = '{' :: (serMembers kvs ++ ['}']) := rfl
  have hbt : findBraceTail (jdump (.obj kvs)).data =
      some ((jdump (.obj kvs)).data) := by
    rw [hdata]
    unfold findBraceTail
    rw [if_pos (by simp)]
    simp [List.dropWhile]
  have hscan : scanLen ('{' :: (serMembers kvs ++ ['}'])) 0 =
      some (('{' :: (serMembers kvs ++ ['}'])).length) := by
    rw [scanLen_lbrace]
    rw [show (0 : Int) + 1 = 1 by norm_num]
    rw [show serMembers kvs ++ ['}'] = serMembers kvs ++ '}' :: ([] : List Char)
      from rfl]
    rw [(scan_through_all (msize kvs)).2.2 kvs (le_refl _) hgm ('}' :: []) 1
      (by norm_num)]
    rw [scanLen_rbrace_one]
    simp [List.length_append]
    omega
  have hec : extractCandidate (jdump (.obj kvs)) = jdump (.obj kvs) := by
    unfold extractCandidate
    rw [hbt]
    show (⟨((jdump (.obj kvs)).data).take
      ((scanLen ((jdump (.obj kvs)).data) 0).getD 0)⟩ : String) =
        jdump (.obj kvs)
    rw [hdata, hscan]
    show (⟨('{' :: (serMembers kvs ++ ['}'])).take
      (('{' :: (serMembers kvs ++ ['}'])).length)⟩ : String) = jdump (.obj kvs)
    rw [List.take_length]
    rfl
  unfold decodeWorking
  rw [hbt, hec]
  rw [show (jdump (.obj kvs)).data = serV (.obj kvs) from rfl]
  rw [jsonParseFull_serV kvs hg2]

/-- A decode whose retained payload is `some` object is exactly the success
result built from that object. -/
theorem decodeJudge_raw_ok (s : String) (kvs : List (String × JValue))
    (h : (decodeJudge s).raw = some (.obj kvs)) :
    decodeJudge s = mkOk kvs := by
  unfold decodeJudge decodeWorking at h ⊢
  cases hbt : findBraceTail (stripFence s).data with
  | none =>
      rw [hbt] at h
      exact absurd h (by simp [mkError])
  | some tail =>
      rw [hbt] at h
      cases hp : jsonParseFull (extractCandidate (stripFence s)).data with
      | none =>
          rw [hp] at h
          exact absurd h (by simp [mkError])
      | some v =>
          cases v with
          | obj kvs2 =>
              rw [hp] at h
              have : kvs2 = kvs := by
                have h2 : some (JValue.obj kvs2) = some (JValue.obj kvs) := h
                injection h2 with h3
                injection h3
              subst this
              rfl
          | null => rw [hp] at h; exact absurd h (by simp [mkError])
          | bool b => rw [hp] at h; exact absurd h (by simp [mkError])
          | num k => rw [hp] at h; exact absurd h (by simp [mkError])
          | str s2 => rw [hp] at h; exact absurd h (by simp [mkError])
          | arr xs => rw [hp] at h; exact absurd h (by simp [mkError])

set_option maxRecDepth 8192 in
/-- C8 counterexample: decoder idempotence fails as stated.  The original
response (backticks written as ``` escapes) decodes successfully and its
retained payload contains a triple-backtick run; the canonical serialization
of that payload then contains a literal code fence, so re-decoding it takes
the fence path and fails instead of returning an equal object. -/
theorem decode_serialize_counterexample :
    (decodeJudge
        "\x7b\"verdict\": \"PASS\", \"summary\": \"\\u0060\\u0060\\u0060x\\u0060\\u0060\\u0060\"\x7d").raw =
      some (.obj [("verdict", .str "PASS"), ("summary", .str "```x```")]) ∧
    (decodeJudge
        "\x7b\"verdict\": \"PASS\", \"summary\": \"\\u0060\\u0060\\u0060x\\u0060\\u0060\\u0060\"\x7d").error =
      none ∧
    jdump (.obj [("verdict", .str "PASS"), ("summary", .str "```x```")]) =
      "\x7b\"verdict\": \"PASS\", \"summary\": \"```x```\"\x7d" ∧
    (decodeJudge (jdump (.obj [("verdict", .str "PASS"),
        ("summary", .str "```x```")]))).raw = none ∧
    (decodeJudge (jdump (.obj [("verdict", .str "PASS"),
        ("summary", .str "```x```")]))).error.isSome = true :=
  ⟨rfl, rfl, rfl, rfl, rfl⟩

/-- C8 amended: decoding the canonical serialization of a previously decoded
object's retained payload yields an equal result, provided the payload is
well formed for the naive decoder: printable-ASCII strings containing no
brace or backtick characters and duplicate-free object keys (braces inside
strings derail the brace scan, and backtick runs create a spurious code
fence, as the counterexample shows). -/
theorem decode_serialize_roundtrip (s : String) (kvs : List (String × JValue))
    (hdec : (decodeJudge s).raw = some (.obj kvs))
    (hg : goodV (.obj kvs) = true) :
    decodeJudge (jdump (.obj kvs)) = decodeJudge s ∧
    (decodeJudge (jdump (.obj kvs))).raw = some (.obj kvs) := by
  have h1 := decodeJudge_raw_ok s kvs hdec
  have h2 := decodeJudge_jdump kvs hg
  rw [h1, h2]
  exact ⟨rfl, rfl⟩

/-- Witness for `decode_serialize_roundtrip` at a concrete decoded object. -/
theorem decode_serialize_roundtrip_witness :
    decodeJudge (jdump (.obj [("verdict", .str "PASS"), ("gaps", .arr [])])) =
      decodeJudge "\x7b\"verdict\": \"PASS\", \"gaps\": []\x7d" ∧
    (decodeJudge (jdump (.obj [("verdict", .str "PASS"),
        ("gaps", .arr [])]))).raw =
      some (.obj [("verdict", .str "PASS"), ("gaps", .arr [])]) :=
  decode_serialize_roundtrip "\x7b\"verdict\": \"PASS\", \"gaps\": []\x7d"
    [("verdict", .str "PASS"), ("gaps", .arr [])] rfl rfl

end Braintrust
